import Mathlib

/-!
# SSD1306Wire: the I2C driver of an SSD1306 OLED controller

A shallow embedding of `src/nRF_SSD1306Wire.h`.

* The `TwoWire` bus object behind `_i2cWire` is an external collaborator; it is
  modelled by the list of calls it has received (`WireCall`), oldest first.
* `uint8_t` / `uint16_t` variables are natural numbers; every increment and
  every narrowing conversion carries its explicit `% 256` / `% 65536`.
* `buffer` and `buffer_back` are lists of bytes; an index outside the list is a
  fault, and so is a loop that has not finished when the fuel is used up: both
  make the model return `none`.
* `yield()` hands control to the scheduler and touches neither the driver nor
  the bus; it has no counterpart in the model.
* The preprocessor switch `OLEDDISPLAY_DOUBLE_BUFFER` is the Boolean argument
  of `display`; the macros `COLUMNADDR` and `PAGEADDR` of the absent
  `OLEDDisplay.h` are parameters.
-/

namespace SSD1306

/-! ## Data model -/

/-- One call received by the `TwoWire` object. -/
inductive WireCall where
  | begin
  | setClock (hz : Nat)
  | beginTransmission (address : Nat)
  | write (data : Nat)
  | endTransmission
  deriving DecidableEq, Repr

/-- Modelled from the spec: the enum `OLEDDISPLAY_GEOMETRY` is declared in the
absent `OLEDDisplay.h`; the driver names the two enumerators `GEOMETRY_128_64`
and `GEOMETRY_128_32` (the spec's "one of two supported resolutions"). A C enum
object can hold further values, which neither branch of `display` matches;
they are collected in `GEOMETRY_OTHER`. -/
inductive OLEDDISPLAY_GEOMETRY where
  | GEOMETRY_128_64
  | GEOMETRY_128_32
  | GEOMETRY_OTHER
  deriving DecidableEq, Repr

/-- The driver object: the private members of `SSD1306Wire`, the members of the
base class `OLEDDisplay` that `display` reads (`width` and `height` are the
values returned by `width()` and `height()`), and the trace `wire` of the calls
made on `*_i2cWire`. -/
structure SSD1306Wire where
  _address : Nat
  _sda : Nat
  _scl : Nat
  _doI2cAutoInit : Bool
  geometry : OLEDDISPLAY_GEOMETRY
  width : Nat
  height : Nat
  displayBufferSize : Nat
  buffer : List Nat
  buffer_back : List Nat
  wire : List WireCall
  deriving DecidableEq, Repr

/-- The four `uint8_t` locals `minBoundY`, `maxBoundY`, `minBoundX`,
`maxBoundX` of `display`. -/
structure Bounds where
  minBoundY : Nat
  maxBoundY : Nat
  minBoundX : Nat
  maxBoundX : Nat
  deriving DecidableEq, Repr

/-- `UINT8_MAX`. -/
def UINT8_MAX : Nat := 255

/-- Conversion of an `int` to `uint8_t` (the parameter type of `sendCommand`). -/
def toUint8 (i : Int) : Nat := (i % 256).toNat

/-! ## Operations -/

/-- `SSD1306Wire::connect`: `begin()`, `setClock(400000)`, returns `true`. -/
def connect (s : SSD1306Wire) : Bool × SSD1306Wire :=
  (true, { s with wire := s.wire ++ [WireCall.begin, WireCall.setClock 400000] })

/-- `SSD1306Wire::setI2cAutoInit`. -/
def setI2cAutoInit (s : SSD1306Wire) (doI2cAutoInit : Bool) : SSD1306Wire :=
  { s with _doI2cAutoInit := doI2cAutoInit }

/-- `SSD1306Wire::initI2cIfNeccesary`. -/
def initI2cIfNeccesary (s : SSD1306Wire) : SSD1306Wire :=
  if s._doI2cAutoInit then { s with wire := s.wire ++ [WireCall.begin] } else s

/-- `SSD1306Wire::sendCommand`. -/
def sendCommand (s : SSD1306Wire) (command : Nat) : SSD1306Wire :=
  let s1 := initI2cIfNeccesary s
  { s1 with wire := s1.wire ++
      [WireCall.beginTransmission s1._address, WireCall.write 0x80,
       WireCall.write command, WireCall.endTransmission] }

/-- The value of `x_offset`: `(128 - this->width()) / 2` in `int` arithmetic
(division truncates toward zero). -/
def x_offset (s : SSD1306Wire) : Int := ((128 : Int) - (s.width : Int)).tdiv 2

/-- The body of `if (buffer[pos] != buffer_back[pos])` in the scan. -/
def growBounds (b : Bounds) (x y : Nat) : Bounds :=
  { minBoundY := min b.minBoundY y
    maxBoundY := max b.maxBoundY y
    minBoundX := min b.minBoundX x
    maxBoundX := max b.maxBoundX x }

/-- The inner scan loop `for (x = ...; x < this->width(); x++)` of page `y`,
entered with the current `x`, bounds and shadow buffer. -/
def scanColumns (W : Nat) (buffer : List Nat) (y : Nat) :
    Nat → Nat → Bounds → List Nat → Option (Bounds × List Nat)
  | 0, _, _, _ => none
  | fuel + 1, x, b, back =>
    if x < W then
      let pos := (x + y * W) % 65536
      match buffer[pos]?, back[pos]? with
      | some v, some w =>
        let b1 := if v ≠ w then growBounds b x y else b
        scanColumns W buffer y fuel ((x + 1) % 256) b1 (back.set pos v)
      | _, _ => none
    else some (b, back)

/-- The outer scan loop `for (y = ...; y < (this->height() / 8); y++)`. -/
def scanPages (W pages : Nat) (buffer : List Nat) :
    Nat → Nat → Bounds → List Nat → Option (Bounds × List Nat)
  | 0, _, _, _ => none
  | fuel + 1, y, b, back =>
    if y < pages then
      match scanColumns W buffer y fuel 0 b back with
      | some (b1, back1) => scanPages W pages buffer fuel ((y + 1) % 256) b1 back1
      | none => none
    else some (b, back)

/-- The inner streaming loop `for (x = ...; x <= maxBoundX; x++)` of page `y`,
entered with the current `x`, the chunk counter `k` and the bus trace. -/
def streamColumns (W address : Nat) (buffer : List Nat) (maxBoundX y : Nat) :
    Nat → Nat → Nat → List WireCall → Option (Nat × List WireCall)
  | 0, _, _, _ => none
  | fuel + 1, x, k, wire =>
    if x ≤ maxBoundX then
      let wire1 :=
        if k = 0 then wire ++ [WireCall.beginTransmission address, WireCall.write 0x40]
        else wire
      match buffer[x + y * W]? with
      | some v =>
        let wire2 := wire1 ++ [WireCall.write v]
        let k1 := (k + 1) % 256
        if k1 = 16 then
          streamColumns W address buffer maxBoundX y fuel ((x + 1) % 256) 0
            (wire2 ++ [WireCall.endTransmission])
        else
          streamColumns W address buffer maxBoundX y fuel ((x + 1) % 256) k1 wire2
      | none => none
    else some (k, wire)

/-- The outer streaming loop `for (y = ...; y <= maxBoundY; y++)`. -/
def streamPages (W address : Nat) (buffer : List Nat) (minBoundX maxBoundX maxBoundY : Nat) :
    Nat → Nat → Nat → List WireCall → Option (Nat × List WireCall)
  | 0, _, _, _ => none
  | fuel + 1, y, k, wire =>
    if y ≤ maxBoundY then
      match streamColumns W address buffer maxBoundX y fuel minBoundX k wire with
      | some (k1, wire1) =>
        streamPages W address buffer minBoundX maxBoundX maxBoundY fuel ((y + 1) % 256) k1 wire1
      | none => none
    else some (k, wire)

/-- The inner loop `for (uint8_t x = ...; x < 16; x++)` of the full refresh; it
writes `buffer[i]` and increments the `uint16_t` index `i`. -/
def writeSixteen (buffer : List Nat) :
    Nat → Nat → Nat → List WireCall → Option (Nat × List WireCall)
  | 0, _, _, _ => none
  | fuel + 1, x, i, wire =>
    if x < 16 then
      match buffer[i]? with
      | some v => writeSixteen buffer fuel ((x + 1) % 256) ((i + 1) % 65536)
          (wire ++ [WireCall.write v])
      | none => none
    else some (i, wire)

/-- The loop `for (uint16_t i = ...; i < displayBufferSize; i++)` of the full
refresh; `i--` and `i++` are taken modulo `2^16`. -/
def refreshLoop (size address : Nat) (buffer : List Nat) :
    Nat → Nat → List WireCall → Option (List WireCall)
  | 0, _, _ => none
  | fuel + 1, i, wire =>
    if i < size then
      let wire1 := wire ++ [WireCall.beginTransmission address, WireCall.write 0x40]
      match writeSixteen buffer fuel 0 i wire1 with
      | some (i1, wire2) =>
        let i2 := (i1 + 65535) % 65536
        refreshLoop size address buffer fuel ((i2 + 1) % 65536)
          (wire2 ++ [WireCall.endTransmission])
      | none => none
    else some wire

/-- The scan phase of the differential `display`: both bounds start at
`UINT8_MAX` / `0`, `y` starts at `0`. -/
def scan (fuel : Nat) (s : SSD1306Wire) : Option (Bounds × List Nat) :=
  scanPages s.width (s.height / 8) s.buffer fuel 0
    { minBoundY := UINT8_MAX, maxBoundY := 0, minBoundX := UINT8_MAX, maxBoundX := 0 }
    s.buffer_back

/-- `SSD1306Wire::display` with `OLEDDISPLAY_DOUBLE_BUFFER` defined. -/
def displayDoubleBuffer (COLUMNADDR PAGEADDR : Nat) (fuel : Nat) (s : SSD1306Wire) :
    Option SSD1306Wire :=
  let s0 := initI2cIfNeccesary s
  let xo := x_offset s0
  match scan fuel s0 with
  | none => none
  | some (b, back) =>
    let s1 := { s0 with buffer_back := back }
    if b.minBoundY = UINT8_MAX then some s1
    else
      let s2 := sendCommand s1 COLUMNADDR
      let s3 := sendCommand s2 (toUint8 (xo + b.minBoundX))
      let s4 := sendCommand s3 (toUint8 (xo + b.maxBoundX))
      let s5 := sendCommand s4 PAGEADDR
      let s6 := sendCommand s5 b.minBoundY
      let s7 := sendCommand s6 b.maxBoundY
      match streamPages s7.width s7._address s7.buffer b.minBoundX b.maxBoundX b.maxBoundY
          fuel b.minBoundY 0 s7.wire with
      | none => none
      | some (k, wire) =>
        if k ≠ 0 then some { s7 with wire := wire ++ [WireCall.endTransmission] }
        else some { s7 with wire := wire }

/-- `SSD1306Wire::display` with `OLEDDISPLAY_DOUBLE_BUFFER` undefined. -/
def displayFullRefresh (COLUMNADDR PAGEADDR : Nat) (fuel : Nat) (s : SSD1306Wire) :
    Option SSD1306Wire :=
  let s0 := initI2cIfNeccesary s
  let xo := x_offset s0
  let s1 := sendCommand s0 COLUMNADDR
  let s2 := sendCommand s1 (toUint8 xo)
  let s3 := sendCommand s2 (toUint8 (xo + ((s2.width : Int) - 1)))
  let s4 := sendCommand s3 PAGEADDR
  let s5 := sendCommand s4 0x0
  let s6 :=
    if s5.geometry = OLEDDISPLAY_GEOMETRY.GEOMETRY_128_64 then sendCommand s5 0x7
    else if s5.geometry = OLEDDISPLAY_GEOMETRY.GEOMETRY_128_32 then sendCommand s5 0x3
    else s5
  match refreshLoop s6.displayBufferSize s6._address s6.buffer fuel 0 s6.wire with
  | none => none
  | some wire => some { s6 with wire := wire }

/-- `SSD1306Wire::display`; the Boolean is the compile-time switch
`OLEDDISPLAY_DOUBLE_BUFFER`. -/
def display (OLEDDISPLAY_DOUBLE_BUFFER : Bool) (COLUMNADDR PAGEADDR : Nat) (fuel : Nat)
    (s : SSD1306Wire) : Option SSD1306Wire :=
  if OLEDDISPLAY_DOUBLE_BUFFER then displayDoubleBuffer COLUMNADDR PAGEADDR fuel s
  else displayFullRefresh COLUMNADDR PAGEADDR fuel s

/-! ## Vocabulary of the specification

The definitions below are not part of the driver; the theorems use them to say
what the loops above compute. -/

/-- The values of the four bounds before the scan. -/
def initBounds : Bounds :=
  { minBoundY := UINT8_MAX, maxBoundY := 0, minBoundX := UINT8_MAX, maxBoundX := 0 }

/-- Cell `(x, y)` (column `x` of page `y`) is on the screen and `buffer` and
`buffer_back` disagree there at entry of `display`. -/
def DiffCell (s : SSD1306Wire) (x y : Nat) : Prop :=
  x < s.width ∧ y < s.height / 8 ∧
    s.buffer[x + y * s.width]? ≠ s.buffer_back[x + y * s.width]?

instance (s : SSD1306Wire) (x y : Nat) : Decidable (DiffCell s x y) := by
  unfold DiffCell; infer_instance

/-- Cell `(x, y)` lies in the rectangle `b`. -/
def InRect (b : Bounds) (x y : Nat) : Prop :=
  b.minBoundX ≤ x ∧ x ≤ b.maxBoundX ∧ b.minBoundY ≤ y ∧ y ≤ b.maxBoundY

instance (b : Bounds) (x y : Nat) : Decidable (InRect b x y) := by
  unfold InRect; infer_instance

/-- The rectangle `b` is the least axis-aligned rectangle that holds every
differing cell: each bound is attained by a differing cell and bounds all of
them. -/
def MinimalRectangle (s : SSD1306Wire) (b : Bounds) : Prop :=
  ((∃ y, DiffCell s b.minBoundX y) ∧ ∀ x y, DiffCell s x y → b.minBoundX ≤ x) ∧
  ((∃ y, DiffCell s b.maxBoundX y) ∧ ∀ x y, DiffCell s x y → x ≤ b.maxBoundX) ∧
  ((∃ x, DiffCell s x b.minBoundY) ∧ ∀ x y, DiffCell s x y → b.minBoundY ≤ y) ∧
  ((∃ x, DiffCell s x b.maxBoundY) ∧ ∀ x y, DiffCell s x y → y ≤ b.maxBoundY)

/-- One step of the scan at cell `(x, y)`, comparing against the shadow buffer
as it was at entry. -/
def scanStep (buffer back : List Nat) (W y : Nat) (b : Bounds) (x : Nat) : Bounds :=
  if buffer[x + y * W]? ≠ back[x + y * W]? then growBounds b x y else b

/-- The scan of one page as a fold over its columns. -/
def scanRow (buffer back : List Nat) (W : Nat) (b : Bounds) (y : Nat) : Bounds :=
  (List.range W).foldl (scanStep buffer back W y) b

/-- The bounds after the whole scan, as a fold over the pages. -/
def scanBounds (s : SSD1306Wire) : Bounds :=
  (List.range (s.height / 8)).foldl (scanRow s.buffer s.buffer_back s.width) initBounds

/-- The step of the scan on a cell given as a pair. -/
def cellStep (buffer back : List Nat) (W : Nat) (b : Bounds) (c : Nat × Nat) : Bounds :=
  scanStep buffer back W c.2 b c.1

/-- The cells of a screen in scan order (row-major). -/
def cells (W pages : Nat) : List (Nat × Nat) :=
  (List.range pages).flatMap (fun y => (List.range W).map (fun x => (x, y)))

/-- The shadow buffer after the scan: the scanned cells hold the contents of
`buffer`, what lies behind them is untouched. -/
def scannedBack (s : SSD1306Wire) : List Nat :=
  s.buffer.take (s.width * (s.height / 8)) ++ s.buffer_back.drop (s.width * (s.height / 8))

/-- The streaming loops flattened to one pass over the bytes to send: the chunk
counter and the trace after the bytes `vs`. -/
def streamBytes (address : Nat) : List Nat → Nat → List WireCall → Nat × List WireCall
  | [], k, wire => (k, wire)
  | v :: vs, k, wire =>
    let wire1 :=
      if k = 0 then wire ++ [WireCall.beginTransmission address, WireCall.write 0x40]
      else wire
    let wire2 := wire1 ++ [WireCall.write v]
    if (k + 1) % 256 = 16 then
      streamBytes address vs 0 (wire2 ++ [WireCall.endTransmission])
    else streamBytes address vs ((k + 1) % 256) wire2

/-- The closing `if (k != 0) endTransmission()` of the differential path. -/
def finishStream (r : Nat × List WireCall) : List WireCall :=
  if r.1 ≠ 0 then r.2 ++ [WireCall.endTransmission] else r.2

/-- The bytes of page `y` between the columns `minBoundX` and `maxBoundX`. -/
def rowBytes (buffer : List Nat) (W minBoundX maxBoundX y : Nat) : List Nat :=
  (List.range' minBoundX (maxBoundX + 1 - minBoundX)).map
    (fun x => (buffer[x + y * W]?).getD 0)

/-- The bytes `buffer[x + y * width]` of the rectangle `b`, page by page and,
within a page, column by column. -/
def rectBytes (s : SSD1306Wire) (b : Bounds) : List Nat :=
  (List.range' b.minBoundY (b.maxBoundY + 1 - b.minBoundY)).flatMap
    (rowBytes s.buffer s.width b.minBoundX b.maxBoundX)

/-- The calls of `initI2cIfNeccesary`: one `begin()` when the flag is set. -/
def initCalls (doI2cAutoInit : Bool) : List WireCall :=
  if doI2cAutoInit then [WireCall.begin] else []

/-- The I2C transaction of one command: `beginTransmission(address)`,
`write(0x80)`, `write(command)`, `endTransmission()`. -/
def commandTransaction (address command : Nat) : List WireCall :=
  [WireCall.beginTransmission address, WireCall.write 0x80,
   WireCall.write command, WireCall.endTransmission]

/-- The calls of one `sendCommand`. -/
def commandCalls (doI2cAutoInit : Bool) (address command : Nat) : List WireCall :=
  initCalls doI2cAutoInit ++ commandTransaction address command

/-- One data transaction: `beginTransmission(address)`, `write(0x40)`, the
payload bytes, `endTransmission()`. -/
def dataCalls (address : Nat) (payload : List Nat) : List WireCall :=
  [WireCall.beginTransmission address, WireCall.write 0x40] ++
    payload.map WireCall.write ++ [WireCall.endTransmission]

/-- The six commands that set the address window to the rectangle `b`. -/
def windowCalls (COLUMNADDR PAGEADDR : Nat) (s : SSD1306Wire) (b : Bounds) : List WireCall :=
  commandCalls s._doI2cAutoInit s._address COLUMNADDR ++
    commandCalls s._doI2cAutoInit s._address (toUint8 (x_offset s + b.minBoundX)) ++
    commandCalls s._doI2cAutoInit s._address (toUint8 (x_offset s + b.maxBoundX)) ++
    commandCalls s._doI2cAutoInit s._address PAGEADDR ++
    commandCalls s._doI2cAutoInit s._address b.minBoundY ++
    commandCalls s._doI2cAutoInit s._address b.maxBoundY

/-- The screens on which the differential `display` runs to its end: the 8-bit
counters `x` and `y` reach `width` and `height / 8` without wrapping, and both
buffers hold every cell of the screen. -/
def ValidDoubleBuffer (s : SSD1306Wire) : Prop :=
  s.width ≤ 255 ∧ s.height / 8 ≤ 255 ∧
    s.width * (s.height / 8) ≤ s.buffer.length ∧
    s.width * (s.height / 8) ≤ s.buffer_back.length

instance (s : SSD1306Wire) : Decidable (ValidDoubleBuffer s) := by
  unfold ValidDoubleBuffer; infer_instance

/-- The sixth command of the full refresh, chosen by the geometry. -/
def geometryCalls (s : SSD1306Wire) : List WireCall :=
  if s.geometry = OLEDDISPLAY_GEOMETRY.GEOMETRY_128_64 then
    commandCalls s._doI2cAutoInit s._address 0x7
  else if s.geometry = OLEDDISPLAY_GEOMETRY.GEOMETRY_128_32 then
    commandCalls s._doI2cAutoInit s._address 0x3
  else []

/-- The commands of the full refresh that set the address window. -/
def fullWindowCalls (COLUMNADDR PAGEADDR : Nat) (s : SSD1306Wire) : List WireCall :=
  commandCalls s._doI2cAutoInit s._address COLUMNADDR ++
    commandCalls s._doI2cAutoInit s._address (toUint8 (x_offset s)) ++
    commandCalls s._doI2cAutoInit s._address
      (toUint8 (x_offset s + ((s.width : Int) - 1))) ++
    commandCalls s._doI2cAutoInit s._address PAGEADDR ++
    commandCalls s._doI2cAutoInit s._address 0x0 ++
    geometryCalls s

/-- The differing cells of a screen, in scan order. -/
def diffCells (s : SSD1306Wire) : List (Nat × Nat) :=
  (cells s.width (s.height / 8)).filter (fun c => decide (DiffCell s c.1 c.2))

/-- The cells of the rectangle `b`, page by page. -/
def rectCells (b : Bounds) : List (Nat × Nat) :=
  (List.range' b.minBoundY (b.maxBoundY - b.minBoundY + 1)).flatMap (fun y =>
    (List.range' b.minBoundX (b.maxBoundX - b.minBoundX + 1)).map (fun x => (x, y)))

/-- Modelled from the spec: `OLEDDisplay::setGeometry` and the allocation of
the pixel buffer are in the absent `OLEDDisplay.cpp`. The spec has the two
supported geometries be the 128-wide "full 64-row or 32-row variants" and the
base class expose a pixel buffer "sized `width()*height()/8`". -/
def GeometryContract (s : SSD1306Wire) : Prop :=
  (s.geometry = OLEDDISPLAY_GEOMETRY.GEOMETRY_128_64 → s.width = 128 ∧ s.height = 64) ∧
  (s.geometry = OLEDDISPLAY_GEOMETRY.GEOMETRY_128_32 → s.width = 128 ∧ s.height = 32) ∧
  s.displayBufferSize = s.width * s.height / 8 ∧
  s.buffer.length = s.displayBufferSize

instance (s : SSD1306Wire) : Decidable (GeometryContract s) := by
  unfold GeometryContract; infer_instance


/-- A session of the caller: for each frame in turn, the frame is written into
`buffer` and `display()` is called. Nothing but `display` runs on the driver
between the calls. -/
def displayFrames (OLEDDISPLAY_DOUBLE_BUFFER : Bool) (COLUMNADDR PAGEADDR fuel : Nat) :
    List (List Nat) → SSD1306Wire → Option SSD1306Wire
  | [], s => some s
  | frame :: frames, s =>
    match display OLEDDISPLAY_DOUBLE_BUFFER COLUMNADDR PAGEADDR fuel
        { s with buffer := frame } with
    | none => none
    | some s1 =>
      displayFrames OLEDDISPLAY_DOUBLE_BUFFER COLUMNADDR PAGEADDR fuel frames s1

/-- The calls one `display()` adds to the trace: those of `initI2cIfNeccesary`,
then one `sendCommand` for each of the listed commands, then one data
transaction for each of the listed payloads. -/
def displayCalls (doI2cAutoInit : Bool) (address : Nat)
    (run : List Nat × List (List Nat)) : List WireCall :=
  initCalls doI2cAutoInit ++ run.1.flatMap (commandCalls doI2cAutoInit address) ++
    run.2.flatMap (dataCalls address)
/-! ## Concrete screens -/

/-- A driver at I2C address `0x3c` with an empty bus trace. -/
def screen (doI2cAutoInit : Bool) (g : OLEDDISPLAY_GEOMETRY) (W H size : Nat)
    (buffer back : List Nat) : SSD1306Wire :=
  { _address := 0x3c, _sda := 4, _scl := 5, _doI2cAutoInit := doI2cAutoInit, geometry := g,
    width := W, height := H, displayBufferSize := size, buffer := buffer,
    buffer_back := back, wire := [] }

/-- A 16 x 24 screen (three pages) whose only differing cell is column 10 of
page 2. -/
def onePixel : SSD1306Wire :=
  screen false OLEDDISPLAY_GEOMETRY.GEOMETRY_OTHER 16 24 48
    (List.replicate 42 0 ++ 1 :: List.replicate 5 0) (List.replicate 48 0)

/-- A 2 x 16 screen (two pages) whose buffers differ on the diagonal: the cells
`(0, 0)` and `(1, 1)` differ, the cells `(1, 0)` and `(0, 1)` do not. -/
def diagonal : SSD1306Wire :=
  screen false OLEDDISPLAY_GEOMETRY.GEOMETRY_OTHER 2 16 4 [1, 0, 0, 1] [0, 0, 0, 0]

/-- A 4 x 40 screen with `displayBufferSize = 20`, which is not a multiple of
16; its 20 buffer bytes `0 .. 19` are followed in memory by the 12 bytes
`20 .. 31`. -/
def overrun : SSD1306Wire :=
  screen false OLEDDISPLAY_GEOMETRY.GEOMETRY_OTHER 4 40 20 (List.range 32) []

/-- The screen `overrun` with nothing readable behind the 20 buffer bytes. -/
def overrunExact : SSD1306Wire :=
  screen false OLEDDISPLAY_GEOMETRY.GEOMETRY_OTHER 4 40 20 (List.range 20) []

/-- A 4 x 64 screen with `displayBufferSize = 32`. -/
def twoChunks : SSD1306Wire :=
  screen true OLEDDISPLAY_GEOMETRY.GEOMETRY_OTHER 4 64 32 (List.range 32) []

/-- A 128 x 32 screen in the geometry `GEOMETRY_128_32`, all pixels off. -/
def panel32 : SSD1306Wire :=
  screen false OLEDDISPLAY_GEOMETRY.GEOMETRY_128_32 128 32 512 (List.replicate 512 0)
    (List.replicate 512 0)

/-! ## Lemmas -/

theorem take_drop_getElem? (l1 l2 : List Nat) (p : Nat) (h : p ≤ l1.length) :
    (l1.take p ++ l2.drop p)[p]? = l2[p]? := by
  rw [List.getElem?_append_right (by simp [h])]
  simp [List.length_take, Nat.min_eq_left h]

theorem take_drop_set (l1 l2 : List Nat) (p v : Nat) (h1 : l1[p]? = some v)
    (h2 : p < l2.length) :
    (l1.take p ++ l2.drop p).set p v = l1.take (p + 1) ++ l2.drop (p + 1) := by
  have hp : p < l1.length := by
    by_contra hc
    rw [List.getElem?_eq_none (by omega)] at h1
    cases h1
  rw [List.set_append]
  have hlen : (l1.take p).length = p := by simp [List.length_take]; omega
  rw [hlen]
  simp only [lt_irrefl, if_false, Nat.sub_self]
  rw [List.take_succ, h1]
  have : l2.drop p = l2[p] :: l2.drop (p + 1) := by
    rw [List.drop_eq_getElem_cons h2]
  rw [this, List.set_cons_zero]
  simp

theorem scanColumns_eq (W y : Nat) (buffer back0 : List Nat) (hW : W ≤ 255)
    (h16 : W + y * W ≤ 65536) (hb : W + y * W ≤ buffer.length)
    (hk : W + y * W ≤ back0.length) :
    ∀ (n fuel x : Nat) (b : Bounds), x + n = W → n < fuel →
      scanColumns W buffer y fuel x b (buffer.take (x + y * W) ++ back0.drop (x + y * W)) =
        some ((List.range' x n).foldl (scanStep buffer back0 W y) b,
          buffer.take (W + y * W) ++ back0.drop (W + y * W)) := by
  intro n
  induction n with
  | zero =>
    intro fuel x b hx hf
    obtain ⟨f, rfl⟩ : ∃ f, fuel = f + 1 := ⟨fuel - 1, by omega⟩
    have : x = W := by omega
    subst this
    simp [scanColumns]
  | succ n ih =>
    intro fuel x b hx hf
    obtain ⟨f, rfl⟩ : ∃ f, fuel = f + 1 := ⟨fuel - 1, by omega⟩
    have hxW : x < W := by omega
    have hpos : (x + y * W) % 65536 = x + y * W := Nat.mod_eq_of_lt (by omega)
    have hx1 : (x + 1) % 256 = x + 1 := Nat.mod_eq_of_lt (by omega)
    have hbl : x + y * W < buffer.length := by omega
    have hkl : x + y * W < back0.length := by omega
    have e1 : buffer[x + y * W]? = some buffer[x + y * W] := List.getElem?_eq_getElem hbl
    have e2 : (buffer.take (x + y * W) ++ back0.drop (x + y * W))[x + y * W]?
        = some back0[x + y * W] := by
      rw [take_drop_getElem? _ _ _ (by omega), List.getElem?_eq_getElem hkl]
    have e3 : back0[x + y * W]? = some back0[x + y * W] := List.getElem?_eq_getElem hkl
    rw [scanColumns, if_pos hxW]
    simp only [hpos, hx1, e1, e2]
    rw [take_drop_set buffer back0 (x + y * W) _ e1 hkl]
    have hs : x + y * W + 1 = (x + 1) + y * W := by omega
    rw [hs, ih f (x + 1) _ (by omega) (by omega), List.range'_succ, List.foldl_cons]
    congr 2
    simp [scanStep, e1, e3]

theorem scanPages_eq (W pages : Nat) (buffer back0 : List Nat) (hW : W ≤ 255)
    (hP : pages ≤ 255) (hb : W * pages ≤ buffer.length) (hk : W * pages ≤ back0.length) :
    ∀ (n fuel y : Nat) (b : Bounds), y + n = pages → n + W + 1 < fuel →
      scanPages W pages buffer fuel y b (buffer.take (y * W) ++ back0.drop (y * W)) =
        some ((List.range' y n).foldl (scanRow buffer back0 W) b,
          buffer.take (W * pages) ++ back0.drop (W * pages)) := by
  intro n
  induction n with
  | zero =>
    intro fuel y b hy hf
    obtain ⟨f, rfl⟩ : ∃ f, fuel = f + 1 := ⟨fuel - 1, by omega⟩
    have : y = pages := by omega
    subst this
    simp [scanPages, Nat.mul_comm]
  | succ n ih =>
    intro fuel y b hy hf
    obtain ⟨f, rfl⟩ : ∃ f, fuel = f + 1 := ⟨fuel - 1, by omega⟩
    have hyP : y < pages := by omega
    have hy1 : (y + 1) % 256 = y + 1 := Nat.mod_eq_of_lt (by omega)
    have hrow : W + y * W ≤ W * pages := by
      have : (y + 1) * W ≤ pages * W := Nat.mul_le_mul_right W (by omega)
      rw [Nat.mul_comm W pages]
      rw [Nat.add_mul, Nat.one_mul] at this
      omega
    have hbig : W * pages ≤ 65536 := by
      calc W * pages ≤ 255 * 255 := Nat.mul_le_mul hW hP
        _ ≤ 65536 := by norm_num
    have hcol := scanColumns_eq W y buffer back0 hW (by omega) (by omega) (by omega)
      W f 0 b (by omega) (by omega)
    simp only [Nat.zero_add] at hcol
    rw [scanPages, if_pos hyP, hcol]
    simp only [hy1]
    have hs : W + y * W = (y + 1) * W := by rw [Nat.add_mul, Nat.one_mul]; omega
    rw [hs, ih f (y + 1) _ (by omega) (by omega), List.range'_succ, List.foldl_cons]
    simp [scanRow, List.range_eq_range']

theorem scan_eq (s : SSD1306Wire) (fuel : Nat) (hW : s.width ≤ 255)
    (hP : s.height / 8 ≤ 255) (hb : s.width * (s.height / 8) ≤ s.buffer.length)
    (hk : s.width * (s.height / 8) ≤ s.buffer_back.length)
    (hf : s.width + s.height / 8 + 1 < fuel) :
    scan fuel s = some (scanBounds s,
      s.buffer.take (s.width * (s.height / 8)) ++
        s.buffer_back.drop (s.width * (s.height / 8))) := by
  have h := scanPages_eq s.width (s.height / 8) s.buffer s.buffer_back hW hP hb hk
    (s.height / 8) fuel 0 initBounds (by omega) (by omega)
  simp only [Nat.zero_mul, List.take_zero, List.drop_zero, List.nil_append] at h
  rw [scan]
  simp only [scanBounds, List.range_eq_range']
  exact h

theorem mem_cells (W pages : Nat) (c : Nat × Nat) :
    c ∈ cells W pages ↔ c.1 < W ∧ c.2 < pages := by
  obtain ⟨x, y⟩ := c
  simp only [cells, List.mem_flatMap, List.mem_range, List.mem_map, Prod.mk.injEq]
  constructor
  · rintro ⟨y', hy, x', hx, rfl, rfl⟩
    exact ⟨hx, hy⟩
  · rintro ⟨hx, hy⟩
    exact ⟨y, hy, x, hx, rfl, rfl⟩

theorem foldl_scanRow_eq (buffer back : List Nat) (W : Nat) (ys : List Nat) (b : Bounds) :
    ys.foldl (scanRow buffer back W) b =
      (ys.flatMap (fun y => (List.range W).map (fun x => (x, y)))).foldl
        (cellStep buffer back W) b := by
  induction ys generalizing b with
  | nil => rfl
  | cons y ys ih =>
    rw [List.foldl_cons, ih, List.flatMap_cons, List.foldl_append, List.foldl_map]
    rfl

theorem scanBounds_eq_foldl (s : SSD1306Wire) :
    scanBounds s =
      (cells s.width (s.height / 8)).foldl (cellStep s.buffer s.buffer_back s.width)
        initBounds := by
  rw [scanBounds, foldl_scanRow_eq]
  rfl

theorem cellStep_mono (buffer back : List Nat) (W : Nat) (b : Bounds) (c : Nat × Nat) :
    (cellStep buffer back W b c).minBoundX ≤ b.minBoundX ∧
    b.maxBoundX ≤ (cellStep buffer back W b c).maxBoundX ∧
    (cellStep buffer back W b c).minBoundY ≤ b.minBoundY ∧
    b.maxBoundY ≤ (cellStep buffer back W b c).maxBoundY := by
  unfold cellStep scanStep growBounds
  split <;> simp

theorem fold_mono (buffer back : List Nat) (W : Nat) (L : List (Nat × Nat)) :
    ∀ b : Bounds,
    (L.foldl (cellStep buffer back W) b).minBoundX ≤ b.minBoundX ∧
    b.maxBoundX ≤ (L.foldl (cellStep buffer back W) b).maxBoundX ∧
    (L.foldl (cellStep buffer back W) b).minBoundY ≤ b.minBoundY ∧
    b.maxBoundY ≤ (L.foldl (cellStep buffer back W) b).maxBoundY := by
  induction L with
  | nil => intro b; simp
  | cons c L ih =>
    intro b
    have h1 := cellStep_mono buffer back W b c
    have h2 := ih (cellStep buffer back W b c)
    simp only [List.foldl_cons]
    omega

theorem cellStep_cover (buffer back : List Nat) (W : Nat) (b : Bounds) (c : Nat × Nat)
    (hd : buffer[c.1 + c.2 * W]? ≠ back[c.1 + c.2 * W]?) :
    (cellStep buffer back W b c).minBoundX ≤ c.1 ∧
    c.1 ≤ (cellStep buffer back W b c).maxBoundX ∧
    (cellStep buffer back W b c).minBoundY ≤ c.2 ∧
    c.2 ≤ (cellStep buffer back W b c).maxBoundY := by
  simp [cellStep, scanStep, hd, growBounds]

theorem cellStep_attain (buffer back : List Nat) (W : Nat) (b : Bounds) (c : Nat × Nat) :
    ((cellStep buffer back W b c).minBoundX = b.minBoundX ∨
      (buffer[c.1 + c.2 * W]? ≠ back[c.1 + c.2 * W]? ∧
        c.1 = (cellStep buffer back W b c).minBoundX)) ∧
    ((cellStep buffer back W b c).maxBoundX = b.maxBoundX ∨
      (buffer[c.1 + c.2 * W]? ≠ back[c.1 + c.2 * W]? ∧
        c.1 = (cellStep buffer back W b c).maxBoundX)) ∧
    ((cellStep buffer back W b c).minBoundY = b.minBoundY ∨
      (buffer[c.1 + c.2 * W]? ≠ back[c.1 + c.2 * W]? ∧
        c.2 = (cellStep buffer back W b c).minBoundY)) ∧
    ((cellStep buffer back W b c).maxBoundY = b.maxBoundY ∨
      (buffer[c.1 + c.2 * W]? ≠ back[c.1 + c.2 * W]? ∧
        c.2 = (cellStep buffer back W b c).maxBoundY)) := by
  by_cases hd : buffer[c.1 + c.2 * W]? ≠ back[c.1 + c.2 * W]?
  · simp only [cellStep, scanStep, if_pos hd, growBounds, ne_eq, hd, not_false_eq_true, true_and]
    refine ⟨?_, ?_, ?_, ?_⟩
    · rcases Nat.le_total b.minBoundX c.1 with hle | hle
      · left; exact Nat.min_eq_left hle
      · right; exact (Nat.min_eq_right hle).symm
    · rcases Nat.le_total b.maxBoundX c.1 with hle | hle
      · right; exact (Nat.max_eq_right hle).symm
      · left; exact Nat.max_eq_left hle
    · rcases Nat.le_total b.minBoundY c.2 with hle | hle
      · left; exact Nat.min_eq_left hle
      · right; exact (Nat.min_eq_right hle).symm
    · rcases Nat.le_total b.maxBoundY c.2 with hle | hle
      · right; exact (Nat.max_eq_right hle).symm
      · left; exact Nat.max_eq_left hle
  · simp only [cellStep, scanStep, if_neg hd, true_or, and_self]

theorem fold_cover (buffer back : List Nat) (W : Nat) (L : List (Nat × Nat)) :
    ∀ (b : Bounds) (c : Nat × Nat), c ∈ L →
      buffer[c.1 + c.2 * W]? ≠ back[c.1 + c.2 * W]? →
    (L.foldl (cellStep buffer back W) b).minBoundX ≤ c.1 ∧
    c.1 ≤ (L.foldl (cellStep buffer back W) b).maxBoundX ∧
    (L.foldl (cellStep buffer back W) b).minBoundY ≤ c.2 ∧
    c.2 ≤ (L.foldl (cellStep buffer back W) b).maxBoundY := by
  induction L with
  | nil => intro b c hc; cases hc
  | cons a L ih =>
    intro b c hc hd
    simp only [List.foldl_cons]
    rcases List.mem_cons.mp hc with rfl | hc
    · have h2 := fold_mono buffer back W L (cellStep buffer back W b c)
      have h3 := cellStep_cover buffer back W b c hd
      omega
    · exact ih _ c hc hd

theorem fold_attain (buffer back : List Nat) (W : Nat) (L : List (Nat × Nat)) :
    ∀ (b : Bounds),
    ((L.foldl (cellStep buffer back W) b).minBoundX = b.minBoundX ∨
      ∃ c ∈ L, buffer[c.1 + c.2 * W]? ≠ back[c.1 + c.2 * W]? ∧
        c.1 = (L.foldl (cellStep buffer back W) b).minBoundX) ∧
    ((L.foldl (cellStep buffer back W) b).maxBoundX = b.maxBoundX ∨
      ∃ c ∈ L, buffer[c.1 + c.2 * W]? ≠ back[c.1 + c.2 * W]? ∧
        c.1 = (L.foldl (cellStep buffer back W) b).maxBoundX) ∧
    ((L.foldl (cellStep buffer back W) b).minBoundY = b.minBoundY ∨
      ∃ c ∈ L, buffer[c.1 + c.2 * W]? ≠ back[c.1 + c.2 * W]? ∧
        c.2 = (L.foldl (cellStep buffer back W) b).minBoundY) ∧
    ((L.foldl (cellStep buffer back W) b).maxBoundY = b.maxBoundY ∨
      ∃ c ∈ L, buffer[c.1 + c.2 * W]? ≠ back[c.1 + c.2 * W]? ∧
        c.2 = (L.foldl (cellStep buffer back W) b).maxBoundY) := by
  induction L with
  | nil => intro b; simp
  | cons a L ih =>
    intro b
    simp only [List.foldl_cons]
    obtain ⟨h1, h2, h3, h4⟩ := ih (cellStep buffer back W b a)
    obtain ⟨g1, g2, g3, g4⟩ := cellStep_attain buffer back W b a
    refine ⟨?_, ?_, ?_, ?_⟩
    · rcases h1 with h | ⟨c, hc, hcd, hce⟩
      · rcases g1 with g | ⟨gd, ge⟩
        · left; rw [h, g]
        · right; exact ⟨a, List.mem_cons_self _ _, gd, by rw [h]; exact ge⟩
      · right; exact ⟨c, List.mem_cons_of_mem _ hc, hcd, hce⟩
    · rcases h2 with h | ⟨c, hc, hcd, hce⟩
      · rcases g2 with g | ⟨gd, ge⟩
        · left; rw [h, g]
        · right; exact ⟨a, List.mem_cons_self _ _, gd, by rw [h]; exact ge⟩
      · right; exact ⟨c, List.mem_cons_of_mem _ hc, hcd, hce⟩
    · rcases h3 with h | ⟨c, hc, hcd, hce⟩
      · rcases g3 with g | ⟨gd, ge⟩
        · left; rw [h, g]
        · right; exact ⟨a, List.mem_cons_self _ _, gd, by rw [h]; exact ge⟩
      · right; exact ⟨c, List.mem_cons_of_mem _ hc, hcd, hce⟩
    · rcases h4 with h | ⟨c, hc, hcd, hce⟩
      · rcases g4 with g | ⟨gd, ge⟩
        · left; rw [h, g]
        · right; exact ⟨a, List.mem_cons_self _ _, gd, by rw [h]; exact ge⟩
      · right; exact ⟨c, List.mem_cons_of_mem _ hc, hcd, hce⟩

theorem fold_nodiff (buffer back : List Nat) (W : Nat) (L : List (Nat × Nat)) :
    ∀ (b : Bounds), (∀ c ∈ L, buffer[c.1 + c.2 * W]? = back[c.1 + c.2 * W]?) →
      L.foldl (cellStep buffer back W) b = b := by
  induction L with
  | nil => intro b _; rfl
  | cons a L ih =>
    intro b h
    have ha := h a (List.mem_cons_self _ _)
    simp only [List.foldl_cons]
    have h3 : (cellStep buffer back W b a) = b := by
      simp [cellStep, scanStep, ha]
    rw [h3]
    exact ih b (fun c hc => h c (List.mem_cons_of_mem _ hc))

theorem scanBounds_cover (s : SSD1306Wire) (x y : Nat) (h : DiffCell s x y) :
    (scanBounds s).minBoundX ≤ x ∧ x ≤ (scanBounds s).maxBoundX ∧
    (scanBounds s).minBoundY ≤ y ∧ y ≤ (scanBounds s).maxBoundY := by
  obtain ⟨hx, hy, hd⟩ := h
  rw [scanBounds_eq_foldl]
  exact fold_cover s.buffer s.buffer_back s.width _ initBounds (x, y)
    ((mem_cells _ _ _).mpr ⟨hx, hy⟩) hd

theorem scanBounds_nodiff (s : SSD1306Wire) (h : ∀ x y, ¬ DiffCell s x y) :
    scanBounds s = initBounds := by
  rw [scanBounds_eq_foldl]
  apply fold_nodiff
  intro c hc
  obtain ⟨hx, hy⟩ := (mem_cells _ _ _).mp hc
  by_contra hne
  exact h c.1 c.2 ⟨hx, hy, hne⟩

theorem scanBounds_attain (s : SSD1306Wire) (hW : s.width ≤ 255) (hP : s.height / 8 ≤ 255)
    (h : ∃ x y, DiffCell s x y) :
    (∃ y, DiffCell s (scanBounds s).minBoundX y) ∧
    (∃ y, DiffCell s (scanBounds s).maxBoundX y) ∧
    (∃ x, DiffCell s x (scanBounds s).minBoundY) ∧
    (∃ x, DiffCell s x (scanBounds s).maxBoundY) := by
  obtain ⟨x0, y0, h0⟩ := h
  obtain ⟨c1, c2, c3, c4⟩ := scanBounds_cover s x0 y0 h0
  obtain ⟨hx0, hy0, hd0⟩ := h0
  have hat := fold_attain s.buffer s.buffer_back s.width (cells s.width (s.height / 8))
    initBounds
  rw [← scanBounds_eq_foldl] at hat
  obtain ⟨a1, a2, a3, a4⟩ := hat
  simp only [initBounds, UINT8_MAX] at a1 a2 a3 a4
  refine ⟨?_, ?_, ?_, ?_⟩
  · rcases a1 with a | ⟨c, hc, hcd, hce⟩
    · omega
    · obtain ⟨hx, hy⟩ := (mem_cells _ _ _).mp hc
      exact ⟨c.2, by rw [← hce]; exact ⟨hx, hy, hcd⟩⟩
  · rcases a2 with a | ⟨c, hc, hcd, hce⟩
    · have : x0 = (scanBounds s).maxBoundX := by omega
      exact ⟨y0, by rw [← this]; exact ⟨hx0, hy0, hd0⟩⟩
    · obtain ⟨hx, hy⟩ := (mem_cells _ _ _).mp hc
      exact ⟨c.2, by rw [← hce]; exact ⟨hx, hy, hcd⟩⟩
  · rcases a3 with a | ⟨c, hc, hcd, hce⟩
    · omega
    · obtain ⟨hx, hy⟩ := (mem_cells _ _ _).mp hc
      exact ⟨c.1, by rw [← hce]; exact ⟨hx, hy, hcd⟩⟩
  · rcases a4 with a | ⟨c, hc, hcd, hce⟩
    · have : y0 = (scanBounds s).maxBoundY := by omega
      exact ⟨x0, by rw [← this]; exact ⟨hx0, hy0, hd0⟩⟩
    · obtain ⟨hx, hy⟩ := (mem_cells _ _ _).mp hc
      exact ⟨c.1, by rw [← hce]; exact ⟨hx, hy, hcd⟩⟩

theorem scanBounds_sentinel (s : SSD1306Wire) (hP : s.height / 8 ≤ 255) :
    (scanBounds s).minBoundY = UINT8_MAX ↔ ∀ x y, ¬ DiffCell s x y := by
  constructor
  · intro h x y hd
    have hc := scanBounds_cover s x y hd
    have := hd.2.1
    simp only [UINT8_MAX] at h
    omega
  · intro h
    rw [scanBounds_nodiff s h]
    rfl

/-- When some cell differs the rectangle is non-empty and lies inside the screen. -/
theorem scanBounds_inside (s : SSD1306Wire) (hW : s.width ≤ 255) (hP : s.height / 8 ≤ 255)
    (h : ∃ x y, DiffCell s x y) :
    (scanBounds s).minBoundX ≤ (scanBounds s).maxBoundX ∧
    (scanBounds s).maxBoundX < s.width ∧
    (scanBounds s).minBoundY ≤ (scanBounds s).maxBoundY ∧
    (scanBounds s).maxBoundY < s.height / 8 := by
  obtain ⟨-, ⟨y1, h1⟩, -, ⟨x2, h2⟩⟩ := scanBounds_attain s hW hP h
  obtain ⟨x0, y0, h0⟩ := h
  obtain ⟨c1, c2, c3, c4⟩ := scanBounds_cover s x0 y0 h0
  exact ⟨by omega, h1.1, by omega, h2.2.1⟩

theorem streamBytes_append (address : Nat) (l1 l2 : List Nat) :
    ∀ (k : Nat) (wire : List WireCall),
      streamBytes address (l1 ++ l2) k wire =
        streamBytes address l2 (streamBytes address l1 k wire).1
          (streamBytes address l1 k wire).2 := by
  induction l1 with
  | nil => intro k wire; rfl
  | cons v vs ih =>
    intro k wire
    simp only [List.cons_append, streamBytes]
    split
    · exact ih _ _
    · exact ih _ _

theorem streamColumns_eq (W address : Nat) (buffer : List Nat) (maxBoundX y : Nat)
    (hmax : maxBoundX ≤ 254) (hb : maxBoundX + y * W < buffer.length) :
    ∀ (n fuel x k : Nat) (wire : List WireCall), x + n = maxBoundX + 1 → n < fuel →
      streamColumns W address buffer maxBoundX y fuel x k wire =
        some (streamBytes address
          ((List.range' x n).map (fun x => (buffer[x + y * W]?).getD 0)) k wire) := by
  intro n
  induction n with
  | zero =>
    intro fuel x k wire hx hf
    obtain ⟨f, rfl⟩ : ∃ f, fuel = f + 1 := ⟨fuel - 1, by omega⟩
    have : ¬ x ≤ maxBoundX := by omega
    simp [streamColumns, this, streamBytes]
  | succ n ih =>
    intro fuel x k wire hx hf
    obtain ⟨f, rfl⟩ : ∃ f, fuel = f + 1 := ⟨fuel - 1, by omega⟩
    have hxm : x ≤ maxBoundX := by omega
    have hx1 : (x + 1) % 256 = x + 1 := Nat.mod_eq_of_lt (by omega)
    have e1 : buffer[x + y * W]? = some buffer[x + y * W] :=
      List.getElem?_eq_getElem (by omega)
    rw [streamColumns, if_pos hxm]
    simp only [e1, hx1, List.range'_succ, List.map_cons, streamBytes, Option.getD_some]
    split
    · exact ih f (x + 1) _ _ (by omega) (by omega)
    · exact ih f (x + 1) _ _ (by omega) (by omega)

theorem streamPages_eq (W address : Nat) (buffer : List Nat)
    (minBoundX maxBoundX maxBoundY : Nat) (hx : minBoundX ≤ maxBoundX)
    (hmx : maxBoundX ≤ 254) (hmy : maxBoundY ≤ 254)
    (hb : maxBoundX + maxBoundY * W < buffer.length) :
    ∀ (n fuel y k : Nat) (wire : List WireCall), y + n = maxBoundY + 1 →
      n + (maxBoundX + 1 - minBoundX) + 1 < fuel →
      streamPages W address buffer minBoundX maxBoundX maxBoundY fuel y k wire =
        some (streamBytes address
          ((List.range' y n).flatMap (rowBytes buffer W minBoundX maxBoundX)) k wire) := by
  intro n
  induction n with
  | zero =>
    intro fuel y k wire hy hf
    obtain ⟨f, rfl⟩ : ∃ f, fuel = f + 1 := ⟨fuel - 1, by omega⟩
    have : ¬ y ≤ maxBoundY := by omega
    simp [streamPages, this, streamBytes]
  | succ n ih =>
    intro fuel y k wire hy hf
    obtain ⟨f, rfl⟩ : ∃ f, fuel = f + 1 := ⟨fuel - 1, by omega⟩
    have hym : y ≤ maxBoundY := by omega
    have hy1 : (y + 1) % 256 = y + 1 := Nat.mod_eq_of_lt (by omega)
    have hrow : maxBoundX + y * W < buffer.length := by
      have : y * W ≤ maxBoundY * W := Nat.mul_le_mul_right W hym
      omega
    have hcol := streamColumns_eq W address buffer maxBoundX y hmx hrow
      (maxBoundX + 1 - minBoundX) f minBoundX k wire (by omega) (by omega)
    rw [streamPages, if_pos hym, hcol]
    simp only [hy1]
    rw [ih f (y + 1) _ _ (by omega) (by omega), List.range'_succ, List.flatMap_cons,
      streamBytes_append]
    rfl

theorem streamBytes_inside (address : Nat) (bs : List Nat) :
    ∀ (k : Nat) (wire : List WireCall), 1 ≤ k → k + bs.length < 16 →
      streamBytes address bs k wire = (k + bs.length, wire ++ bs.map WireCall.write) := by
  induction bs with
  | nil => intro k wire _ _; simp [streamBytes]
  | cons v vs ih =>
    intro k wire hk hlen
    simp only [List.length_cons] at hlen
    have h1 : (k + 1) % 256 = k + 1 := Nat.mod_eq_of_lt (by omega)
    have h2 : k + 1 ≠ 16 := by omega
    have h3 : k ≠ 0 := by omega
    simp only [streamBytes, h1, h2, h3, if_false]
    rw [ih (k + 1) _ (by omega) (by omega)]
    simp only [List.length_cons, List.map_cons, List.append_assoc, List.singleton_append]
    congr 1
    omega

theorem streamBytes_close (address : Nat) (bs rest : List Nat) :
    ∀ (k : Nat) (wire : List WireCall), 1 ≤ k → k ≤ 15 → k + bs.length = 16 →
      streamBytes address (bs ++ rest) k wire =
        streamBytes address rest 0
          (wire ++ bs.map WireCall.write ++ [WireCall.endTransmission]) := by
  induction bs with
  | nil => intro k wire _ _ h; simp at h; omega
  | cons v vs ih =>
    intro k wire hk hk2 hlen
    simp only [List.length_cons] at hlen
    have h1 : (k + 1) % 256 = k + 1 := Nat.mod_eq_of_lt (by omega)
    have h3 : k ≠ 0 := by omega
    by_cases h2 : k + 1 = 16
    · have hvs : vs = [] := List.eq_nil_of_length_eq_zero (by omega)
      subst hvs
      simp [streamBytes, h1, h2, h3]
    · have hih := ih (k + 1) (wire ++ [WireCall.write v]) (by omega) (by omega) (by omega)
      simp only [List.cons_append, streamBytes, h1, h2, h3, if_false]
      show streamBytes address (vs ++ rest) (k + 1) (wire ++ [WireCall.write v]) = _
      rw [hih]
      simp

theorem mem_dropLast_cons {α : Type} (a : α) (L : List α) (c : α)
    (h : c ∈ (a :: L).dropLast) : c = a ∨ c ∈ L.dropLast := by
  cases L with
  | nil => simp at h
  | cons b L =>
    rw [List.dropLast_cons_of_ne_nil (by simp)] at h
    exact List.mem_cons.mp h

theorem stream_chunks (address : Nat) :
    ∀ (n : Nat) (bs : List Nat), bs.length ≤ n →
      ∃ chunks : List (List Nat), chunks.flatten = bs ∧
        (∀ c ∈ chunks, 0 < c.length ∧ c.length ≤ 16) ∧
        (∀ c ∈ chunks.dropLast, c.length = 16) ∧
        ∀ wire : List WireCall,
          finishStream (streamBytes address bs 0 wire) =
            wire ++ chunks.flatMap (dataCalls address) := by
  intro n
  induction n with
  | zero =>
    intro bs h
    have : bs = [] := List.eq_nil_of_length_eq_zero (by omega)
    subst this
    exact ⟨[], rfl, by simp, by simp, by intro wire; simp [streamBytes, finishStream]⟩
  | succ n ih =>
    intro bs h
    cases bs with
    | nil => exact ⟨[], rfl, by simp, by simp, by intro wire; simp [streamBytes, finishStream]⟩
    | cons v vs =>
      simp only [List.length_cons] at h
      by_cases hshort : vs.length < 15
      · refine ⟨[v :: vs], by simp, ?_, by simp, ?_⟩
        · intro c hc
          simp only [List.mem_singleton] at hc
          subst hc
          simp only [List.length_cons]
          omega
        · intro wire
          simp only [streamBytes, if_true]
          rw [streamBytes_inside address vs 1 _ (by omega) (by omega)]
          have : 1 + vs.length ≠ 0 := by omega
          simp [finishStream, this, dataCalls]
      · obtain ⟨chunks, hflat, hlen, hfull, hwire⟩ := ih (vs.drop 15)
          (by rw [List.length_drop]; omega)
        refine ⟨(v :: vs.take 15) :: chunks, ?_, ?_, ?_, ?_⟩
        · rw [List.flatten_cons, hflat]
          simp
        · intro c hc
          rcases List.mem_cons.mp hc with rfl | hc
          · simp only [List.length_cons, List.length_take]
            omega
          · exact hlen c hc
        · intro c hc
          rcases mem_dropLast_cons _ _ _ hc with rfl | hc
          · simp only [List.length_cons, List.length_take]
            omega
          · exact hfull c hc
        · intro wire
          have hsplit : vs = vs.take 15 ++ vs.drop 15 := (List.take_append_drop 15 vs).symm
          have hstep : streamBytes address (v :: vs) 0 wire =
              streamBytes address (vs.drop 15) 0 (wire ++ dataCalls address (v :: vs.take 15)) := by
            conv_lhs => rw [hsplit]
            simp only [streamBytes, if_true]
            rw [streamBytes_close address (vs.take 15) (vs.drop 15) 1 _ (by omega) (by omega)
              (by rw [List.length_take]; omega)]
            simp [dataCalls]
          rw [hstep, hwire, List.flatMap_cons]
          simp

theorem initI2cIfNeccesary_eq (s : SSD1306Wire) :
    initI2cIfNeccesary s = { s with wire := s.wire ++ initCalls s._doI2cAutoInit } := by
  unfold initI2cIfNeccesary initCalls
  split <;> simp

theorem sendCommand_eq (s : SSD1306Wire) (command : Nat) :
    sendCommand s command =
      { s with wire := s.wire ++ commandCalls s._doI2cAutoInit s._address command } := by
  simp only [sendCommand, initI2cIfNeccesary_eq, commandCalls, commandTransaction,
    List.append_assoc]

theorem displayDoubleBuffer_same (COLUMNADDR PAGEADDR : Nat) (s : SSD1306Wire) (fuel : Nat)
    (hv : ValidDoubleBuffer s) (hf : s.width + s.height / 8 + 2 ≤ fuel)
    (hn : ∀ x y, ¬ DiffCell s x y) :
    displayDoubleBuffer COLUMNADDR PAGEADDR fuel s =
      some { s with buffer_back := scannedBack s,
                    wire := s.wire ++ initCalls s._doI2cAutoInit } := by
  obtain ⟨hW, hP, hb, hk⟩ := hv
  have hscan := scan_eq s fuel hW hP hb hk (by omega)
  have hs0 : scan fuel (initI2cIfNeccesary s) = scan fuel s := by
    rw [initI2cIfNeccesary_eq]; rfl
  have hsent := (scanBounds_sentinel s hP).mpr hn
  simp only [displayDoubleBuffer, hs0, hscan]
  simp only [hsent, if_true, initI2cIfNeccesary_eq, scannedBack]

theorem displayDoubleBuffer_changed (COLUMNADDR PAGEADDR : Nat) (s : SSD1306Wire) (fuel : Nat)
    (hv : ValidDoubleBuffer s) (hf : s.width + s.height / 8 + 2 ≤ fuel)
    (hd : ∃ x y, DiffCell s x y) :
    ∃ chunks : List (List Nat), chunks.flatten = rectBytes s (scanBounds s) ∧
      (∀ c ∈ chunks, 0 < c.length ∧ c.length ≤ 16) ∧
      (∀ c ∈ chunks.dropLast, c.length = 16) ∧
      displayDoubleBuffer COLUMNADDR PAGEADDR fuel s =
        some { s with
          buffer_back := scannedBack s
          wire := s.wire ++ initCalls s._doI2cAutoInit ++
            windowCalls COLUMNADDR PAGEADDR s (scanBounds s) ++
            chunks.flatMap (dataCalls s._address) } := by
  obtain ⟨hW, hP, hb, hk⟩ := hv
  have hscan := scan_eq s fuel hW hP hb hk (by omega)
  have hs0 : scan fuel (initI2cIfNeccesary s) = scan fuel s := by
    rw [initI2cIfNeccesary_eq]; rfl
  have hsent : ¬ (scanBounds s).minBoundY = UINT8_MAX := by
    intro h
    obtain ⟨x, y, hxy⟩ := hd
    exact (scanBounds_sentinel s hP).mp h x y hxy
  obtain ⟨i1, i2, i3, i4⟩ := scanBounds_inside s hW hP hd
  have hin : (scanBounds s).maxBoundX + (scanBounds s).maxBoundY * s.width < s.buffer.length := by
    have : ((scanBounds s).maxBoundY + 1) * s.width ≤ (s.height / 8) * s.width :=
      Nat.mul_le_mul_right _ (by omega)
    rw [Nat.add_mul, Nat.one_mul, Nat.mul_comm (s.height / 8)] at this
    omega
  obtain ⟨chunks, hflat, hlen, hfull, hwire⟩ := stream_chunks s._address
    (rectBytes s (scanBounds s)).length (rectBytes s (scanBounds s)) le_rfl
  refine ⟨chunks, hflat, hlen, hfull, ?_⟩
  have hstream := fun wire => streamPages_eq s.width s._address s.buffer
    (scanBounds s).minBoundX (scanBounds s).maxBoundX (scanBounds s).maxBoundY i1
    (by omega) (by omega) hin ((scanBounds s).maxBoundY + 1 - (scanBounds s).minBoundY)
    fuel (scanBounds s).minBoundY 0 wire (by omega) (by omega)
  have hx : x_offset (initI2cIfNeccesary s) = x_offset s := by
    rw [initI2cIfNeccesary_eq]; rfl
  simp only [displayDoubleBuffer, hs0, hscan, hx]
  simp only [hsent, if_false]
  simp only [sendCommand_eq, initI2cIfNeccesary_eq, hstream]
  have hw := hwire (s.wire ++ initCalls s._doI2cAutoInit ++
    windowCalls COLUMNADDR PAGEADDR s (scanBounds s))
  simp only [finishStream, rectBytes] at hw
  simp only [windowCalls, scannedBack, List.append_assoc] at hw ⊢
  rw [← hw]
  split <;> rfl

theorem scanColumns_succ (W : Nat) (buffer : List Nat) (y : Nat) :
    ∀ (fuel x : Nat) (b : Bounds) (back : List Nat) (r : Bounds × List Nat),
      scanColumns W buffer y fuel x b back = some r →
      scanColumns W buffer y (fuel + 1) x b back = some r := by
  intro fuel
  induction fuel with
  | zero => intro x b back r h; simp [scanColumns] at h
  | succ f ih =>
    intro x b back r h
    rw [scanColumns] at h ⊢
    by_cases hx : x < W
    · rw [if_pos hx] at h ⊢
      cases h1 : buffer[(x + y * W) % 65536]? with
      | none => simp [h1] at h
      | some v =>
        cases h2 : back[(x + y * W) % 65536]? with
        | none => simp [h1, h2] at h
        | some w =>
          simp only [h1, h2] at h ⊢
          exact ih _ _ _ _ h
    · rw [if_neg hx] at h ⊢
      exact h

theorem scanPages_succ (W pages : Nat) (buffer : List Nat) :
    ∀ (fuel y : Nat) (b : Bounds) (back : List Nat) (r : Bounds × List Nat),
      scanPages W pages buffer fuel y b back = some r →
      scanPages W pages buffer (fuel + 1) y b back = some r := by
  intro fuel
  induction fuel with
  | zero => intro y b back r h; simp [scanPages] at h
  | succ f ih =>
    intro y b back r h
    rw [scanPages] at h ⊢
    by_cases hy : y < pages
    · rw [if_pos hy] at h ⊢
      cases h1 : scanColumns W buffer y f 0 b back with
      | none => simp [h1] at h
      | some r1 =>
        rw [scanColumns_succ W buffer y f 0 b back r1 h1]
        simp only [h1] at h ⊢
        exact ih _ _ _ _ h
    · rw [if_neg hy] at h ⊢
      exact h

theorem streamColumns_succ (W address : Nat) (buffer : List Nat) (maxBoundX y : Nat) :
    ∀ (fuel x k : Nat) (wire : List WireCall) (r : Nat × List WireCall),
      streamColumns W address buffer maxBoundX y fuel x k wire = some r →
      streamColumns W address buffer maxBoundX y (fuel + 1) x k wire = some r := by
  intro fuel
  induction fuel with
  | zero => intro x k wire r h; simp [streamColumns] at h
  | succ f ih =>
    intro x k wire r h
    rw [streamColumns] at h ⊢
    by_cases hx : x ≤ maxBoundX
    · rw [if_pos hx] at h ⊢
      cases h1 : buffer[x + y * W]? with
      | none => simp [h1] at h
      | some v =>
        simp only [h1] at h ⊢
        split at h
        · rename_i hk
          rw [if_pos hk]
          exact ih _ _ _ _ h
        · rename_i hk
          rw [if_neg hk]
          exact ih _ _ _ _ h
    · rw [if_neg hx] at h ⊢
      exact h

theorem streamPages_succ (W address : Nat) (buffer : List Nat)
    (minBoundX maxBoundX maxBoundY : Nat) :
    ∀ (fuel y k : Nat) (wire : List WireCall) (r : Nat × List WireCall),
      streamPages W address buffer minBoundX maxBoundX maxBoundY fuel y k wire = some r →
      streamPages W address buffer minBoundX maxBoundX maxBoundY (fuel + 1) y k wire =
        some r := by
  intro fuel
  induction fuel with
  | zero => intro y k wire r h; simp [streamPages] at h
  | succ f ih =>
    intro y k wire r h
    rw [streamPages] at h ⊢
    by_cases hy : y ≤ maxBoundY
    · rw [if_pos hy] at h ⊢
      cases h1 : streamColumns W address buffer maxBoundX y f minBoundX k wire with
      | none => simp [h1] at h
      | some r1 =>
        rw [streamColumns_succ W address buffer maxBoundX y f minBoundX k wire r1 h1]
        simp only [h1] at h ⊢
        exact ih _ _ _ _ h
    · rw [if_neg hy] at h ⊢
      exact h

theorem displayDoubleBuffer_succ (COLUMNADDR PAGEADDR : Nat) (s s' : SSD1306Wire) (fuel : Nat)
    (h : displayDoubleBuffer COLUMNADDR PAGEADDR fuel s = some s') :
    displayDoubleBuffer COLUMNADDR PAGEADDR (fuel + 1) s = some s' := by
  unfold displayDoubleBuffer at h ⊢
  simp only at h ⊢
  cases h1 : scan fuel (initI2cIfNeccesary s) with
  | none => simp [h1] at h
  | some r =>
    have h1' : scan (fuel + 1) (initI2cIfNeccesary s) = some r := by
      unfold scan at h1 ⊢
      exact scanPages_succ _ _ _ _ _ _ _ _ h1
    simp only [h1, h1'] at h ⊢
    split at h
    · rename_i hm
      rw [if_pos hm]
      exact h
    · rename_i hm
      rw [if_neg hm]
      split at h
      · cases h
      · rename_i k wire h2
        rw [streamPages_succ _ _ _ _ _ _ _ _ _ _ _ h2]
        exact h

theorem displayDoubleBuffer_mono (COLUMNADDR PAGEADDR : Nat) (s s' : SSD1306Wire)
    (fuel fuel' : Nat) (hle : fuel ≤ fuel')
    (h : displayDoubleBuffer COLUMNADDR PAGEADDR fuel s = some s') :
    displayDoubleBuffer COLUMNADDR PAGEADDR fuel' s = some s' := by
  induction hle with
  | refl => exact h
  | step _ ih => exact displayDoubleBuffer_succ _ _ _ _ _ ih

theorem scanColumns_wide (W : Nat) (buffer : List Nat) (y : Nat) (hW : 256 ≤ W) :
    ∀ (fuel x : Nat) (b : Bounds) (back : List Nat), x < 256 →
      scanColumns W buffer y fuel x b back = none := by
  intro fuel
  induction fuel with
  | zero => intro x b back _; rfl
  | succ f ih =>
    intro x b back hx
    rw [scanColumns, if_pos (by omega)]
    cases h1 : buffer[(x + y * W) % 65536]? with
    | none => simp [h1]
    | some v =>
      cases h2 : back[(x + y * W) % 65536]? with
      | none => simp [h1, h2]
      | some w =>
        simp only [h1, h2]
        exact ih _ _ _ (Nat.mod_lt _ (by norm_num))

theorem scanPages_tall (W pages : Nat) (buffer : List Nat) (hP : 256 ≤ pages) :
    ∀ (fuel y : Nat) (b : Bounds) (back : List Nat), y < 256 →
      scanPages W pages buffer fuel y b back = none := by
  intro fuel
  induction fuel with
  | zero => intro y b back _; rfl
  | succ f ih =>
    intro y b back hy
    rw [scanPages, if_pos (by omega)]
    cases h1 : scanColumns W buffer y f 0 b back with
    | none => rfl
    | some r =>
      simp only []
      exact ih _ _ _ (Nat.mod_lt _ (by norm_num))

theorem scanColumns_length (W : Nat) (buffer : List Nat) (y : Nat) :
    ∀ (fuel x : Nat) (b : Bounds) (back : List Nat) (r : Bounds × List Nat),
      scanColumns W buffer y fuel x b back = some r → r.2.length = back.length := by
  intro fuel
  induction fuel with
  | zero => intro x b back r h; simp [scanColumns] at h
  | succ f ih =>
    intro x b back r h
    rw [scanColumns] at h
    by_cases hx : x < W
    · rw [if_pos hx] at h
      cases h1 : buffer[(x + y * W) % 65536]? with
      | none => simp [h1] at h
      | some v =>
        cases h2 : back[(x + y * W) % 65536]? with
        | none => simp [h1, h2] at h
        | some w =>
          simp only [h1, h2] at h
          rw [ih _ _ _ _ h, List.length_set]
    · rw [if_neg hx] at h
      cases h
      rfl

theorem scanColumns_inbounds (W : Nat) (buffer : List Nat) (y : Nat) (hW : W ≤ 255)
    (h16 : W + y * W ≤ 65536) :
    ∀ (fuel x : Nat) (b : Bounds) (back : List Nat) (r : Bounds × List Nat), x < W →
      scanColumns W buffer y fuel x b back = some r →
      W + y * W ≤ buffer.length ∧ W + y * W ≤ back.length := by
  intro fuel
  induction fuel with
  | zero => intro x b back r _ h; simp [scanColumns] at h
  | succ f ih =>
    intro x b back r hx h
    rw [scanColumns, if_pos hx] at h
    have hpos : (x + y * W) % 65536 = x + y * W := Nat.mod_eq_of_lt (by omega)
    have hx1 : (x + 1) % 256 = x + 1 := Nat.mod_eq_of_lt (by omega)
    rw [hpos, hx1] at h
    cases h1 : buffer[x + y * W]? with
    | none => simp [h1] at h
    | some v =>
      cases h2 : back[x + y * W]? with
      | none => simp [h1, h2] at h
      | some w =>
        simp only [h1, h2] at h
        have hb : x + y * W < buffer.length := by
          by_contra hc
          rw [List.getElem?_eq_none (by omega)] at h1
          cases h1
        have hk : x + y * W < back.length := by
          by_contra hc
          rw [List.getElem?_eq_none (by omega)] at h2
          cases h2
        by_cases hlast : x + 1 < W
        · have := ih _ _ _ _ hlast h
          rw [List.length_set] at this
          exact this
        · omega

theorem scanPages_inbounds (W pages : Nat) (buffer : List Nat) (hW : W ≤ 255)
    (hP : pages ≤ 255) :
    ∀ (fuel y : Nat) (b : Bounds) (back : List Nat) (r : Bounds × List Nat), y < pages →
      scanPages W pages buffer fuel y b back = some r →
      W * pages ≤ buffer.length ∧ W * pages ≤ back.length := by
  intro fuel
  induction fuel with
  | zero => intro y b back r _ h; simp [scanPages] at h
  | succ f ih =>
    intro y b back r hy h
    rw [scanPages, if_pos hy] at h
    have hy1 : (y + 1) % 256 = y + 1 := Nat.mod_eq_of_lt (by omega)
    rw [hy1] at h
    cases h1 : scanColumns W buffer y f 0 b back with
    | none => simp [h1] at h
    | some r1 =>
      simp only [h1] at h
      have hlen := scanColumns_length W buffer y f 0 b back r1 h1
      by_cases hlast : y + 1 < pages
      · have := ih _ _ _ _ hlast h
        rw [hlen] at this
        exact this
      · have hyp : pages = y + 1 := by omega
        rcases Nat.eq_zero_or_pos W with h0 | hpos
        · subst h0; simp
        · have h16 : W + y * W ≤ 65536 := by
            have : (y + 1) * W ≤ 255 * 255 := Nat.mul_le_mul (by omega) hW
            rw [Nat.add_mul, Nat.one_mul] at this
            omega
          have := scanColumns_inbounds W buffer y hW h16 f 0 b back r1 hpos h1
          have e : W * pages = W + y * W := by
            rw [hyp, Nat.mul_comm, Nat.add_mul, Nat.one_mul]; omega
          rw [e]
          exact this

theorem scanPages_wide (W pages : Nat) (buffer : List Nat) (hW : 256 ≤ W)
    (fuel y : Nat) (b : Bounds) (back : List Nat) (hy : y < pages) :
    scanPages W pages buffer fuel y b back = none := by
  cases fuel with
  | zero => rfl
  | succ f =>
    rw [scanPages, if_pos hy, scanColumns_wide W buffer y hW f 0 b back (by norm_num)]

/-- The scan succeeds only on a screen whose loops terminate without wrapping and
whose buffers hold every scanned cell, or on a screen without pages. -/
theorem scan_some_valid (s : SSD1306Wire) (fuel : Nat) (r : Bounds × List Nat)
    (h : scan fuel s = some r) : s.height / 8 = 0 ∨ ValidDoubleBuffer s := by
  rcases Nat.eq_zero_or_pos (s.height / 8) with h0 | hpos
  · exact Or.inl h0
  · right
    unfold scan at h
    by_cases hW : 256 ≤ s.width
    · rw [scanPages_wide _ _ _ hW _ _ _ _ hpos] at h
      cases h
    · by_cases hP : 256 ≤ s.height / 8
      · rw [scanPages_tall _ _ _ hP _ _ _ _ (by norm_num)] at h
        cases h
      · have := scanPages_inbounds s.width (s.height / 8) s.buffer (by omega) (by omega)
          fuel 0 _ _ r hpos h
        exact ⟨by omega, by omega, this.1, this.2⟩

theorem scan_mono (s : SSD1306Wire) (fuel fuel' : Nat) (r : Bounds × List Nat)
    (hle : fuel ≤ fuel') (h : scan fuel s = some r) : scan fuel' s = some r := by
  induction hle with
  | refl => exact h
  | step _ ih =>
    unfold scan at ih ⊢
    exact scanPages_succ _ _ _ _ _ _ _ _ ih

theorem scan_initI2cIfNeccesary (s : SSD1306Wire) (fuel : Nat) :
    scan fuel (initI2cIfNeccesary s) = scan fuel s := by
  rw [initI2cIfNeccesary_eq]; rfl

theorem displayDoubleBuffer_scan (COLUMNADDR PAGEADDR : Nat) (s s' : SSD1306Wire) (fuel : Nat)
    (h : displayDoubleBuffer COLUMNADDR PAGEADDR fuel s = some s') :
    ∃ r, scan fuel s = some r := by
  unfold displayDoubleBuffer at h
  simp only [scan_initI2cIfNeccesary] at h
  cases h1 : scan fuel s with
  | none => simp [h1] at h
  | some r => exact ⟨r, rfl⟩

theorem not_diffCell_of_flat (s : SSD1306Wire) (h0 : s.height / 8 = 0) (x y : Nat) :
    ¬ DiffCell s x y := by
  intro hd
  have := hd.2.1
  omega

theorem scan_flat (s : SSD1306Wire) (fuel : Nat) (h0 : s.height / 8 = 0) :
    scan (fuel + 1) s = some (scanBounds s, scannedBack s) := by
  have hb : scanBounds s = initBounds := scanBounds_nodiff s (not_diffCell_of_flat s h0)
  simp [scan, scanPages, h0, hb, scannedBack, initBounds]

/-- What the scan returns whenever it returns. -/
theorem scan_some_eq (s : SSD1306Wire) (fuel : Nat) (r : Bounds × List Nat)
    (h : scan fuel s = some r) : r = (scanBounds s, scannedBack s) := by
  rcases scan_some_valid s fuel r h with h0 | ⟨hW, hP, hb, hk⟩
  · have h1 := scan_mono s fuel (fuel + 1) r (by omega) h
    rw [scan_flat s fuel h0] at h1
    exact (Option.some.inj h1).symm
  · have h1 := scan_mono s fuel (max fuel (s.width + s.height / 8 + 2)) r (le_max_left _ _) h
    rw [scan_eq s _ hW hP hb hk (by have := le_max_right fuel (s.width + s.height / 8 + 2); omega)]
      at h1
    exact (Option.some.inj h1).symm

theorem displayDoubleBuffer_cases (COLUMNADDR PAGEADDR : Nat) (s s' : SSD1306Wire) (fuel : Nat)
    (h : displayDoubleBuffer COLUMNADDR PAGEADDR fuel s = some s') :
    ((s.height / 8 = 0 ∨ ValidDoubleBuffer s) ∧ (∀ x y, ¬ DiffCell s x y) ∧
      s' = { s with buffer_back := scannedBack s,
                    wire := s.wire ++ initCalls s._doI2cAutoInit }) ∨
    (ValidDoubleBuffer s ∧ (∃ x y, DiffCell s x y) ∧
      ∃ chunks : List (List Nat), chunks.flatten = rectBytes s (scanBounds s) ∧
        (∀ c ∈ chunks, 0 < c.length ∧ c.length ≤ 16) ∧
        (∀ c ∈ chunks.dropLast, c.length = 16) ∧
        s' = { s with
          buffer_back := scannedBack s
          wire := s.wire ++ initCalls s._doI2cAutoInit ++
            windowCalls COLUMNADDR PAGEADDR s (scanBounds s) ++
            chunks.flatMap (dataCalls s._address) }) := by
  obtain ⟨r, hr⟩ := displayDoubleBuffer_scan _ _ _ _ _ h
  have hreq := scan_some_eq s fuel r hr
  subst hreq
  by_cases hd : ∃ x y, DiffCell s x y
  · right
    have hv : ValidDoubleBuffer s := by
      rcases scan_some_valid s fuel _ hr with h0 | hv
      · obtain ⟨x, y, hxy⟩ := hd
        exact absurd hxy (not_diffCell_of_flat s h0 x y)
      · exact hv
    have hbig := displayDoubleBuffer_mono _ _ _ _ fuel (max fuel (s.width + s.height / 8 + 2))
      (le_max_left _ _) h
    obtain ⟨chunks, c1, c2, c3, c4⟩ := displayDoubleBuffer_changed COLUMNADDR PAGEADDR s
      (max fuel (s.width + s.height / 8 + 2)) hv (le_max_right _ _) hd
    rw [hbig] at c4
    exact ⟨hv, hd, chunks, c1, c2, c3, Option.some.inj c4⟩
  · left
    have hn : ∀ x y, ¬ DiffCell s x y := fun x y hxy => hd ⟨x, y, hxy⟩
    refine ⟨scan_some_valid s fuel _ hr, hn, ?_⟩
    have hsent : (scanBounds s).minBoundY = UINT8_MAX := by
      rw [scanBounds_nodiff s hn]; rfl
    unfold displayDoubleBuffer at h
    simp only [scan_initI2cIfNeccesary, hr] at h
    simp only [hsent, if_true, initI2cIfNeccesary_eq] at h
    exact (Option.some.inj h).symm

/-- On a valid screen the differential `display` returns. -/
theorem displayDoubleBuffer_total (COLUMNADDR PAGEADDR : Nat) (s : SSD1306Wire) (fuel : Nat)
    (hv : ValidDoubleBuffer s) (hf : s.width + s.height / 8 + 2 ≤ fuel) :
    ∃ s', displayDoubleBuffer COLUMNADDR PAGEADDR fuel s = some s' := by
  by_cases hd : ∃ x y, DiffCell s x y
  · obtain ⟨chunks, -, -, -, c4⟩ := displayDoubleBuffer_changed COLUMNADDR PAGEADDR s fuel hv hf hd
    exact ⟨_, c4⟩
  · exact ⟨_, displayDoubleBuffer_same COLUMNADDR PAGEADDR s fuel hv hf
      (fun x y hxy => hd ⟨x, y, hxy⟩)⟩

theorem writeSixteen_eq (buffer : List Nat) :
    ∀ (n fuel x i : Nat) (wire : List WireCall), x + n = 16 → n < fuel →
      i + n ≤ buffer.length → i + n < 65536 →
      writeSixteen buffer fuel x i wire =
        some (i + n, wire ++ ((buffer.drop i).take n).map WireCall.write) := by
  intro n
  induction n with
  | zero =>
    intro fuel x i wire hx hf _ _
    obtain ⟨f, rfl⟩ : ∃ f, fuel = f + 1 := ⟨fuel - 1, by omega⟩
    have : ¬ x < 16 := by omega
    simp [writeSixteen, this]
  | succ n ih =>
    intro fuel x i wire hx hf hb h16
    obtain ⟨f, rfl⟩ : ∃ f, fuel = f + 1 := ⟨fuel - 1, by omega⟩
    have hx16 : x < 16 := by omega
    have hx1 : (x + 1) % 256 = x + 1 := Nat.mod_eq_of_lt (by omega)
    have hi1 : (i + 1) % 65536 = i + 1 := Nat.mod_eq_of_lt (by omega)
    have hil : i < buffer.length := by omega
    have e1 : buffer[i]? = some buffer[i] := List.getElem?_eq_getElem hil
    rw [writeSixteen, if_pos hx16]
    simp only [e1, hx1, hi1]
    rw [ih f (x + 1) (i + 1) _ (by omega) (by omega) (by omega) (by omega)]
    have hd : buffer.drop i = buffer[i] :: buffer.drop (i + 1) := by
      rw [List.drop_eq_getElem_cons hil]
    rw [hd, List.take_succ_cons, List.map_cons]
    simp only [List.append_assoc, List.singleton_append, Option.some.injEq, Prod.mk.injEq,
      and_true]
    omega

theorem refreshLoop_eq (size address : Nat) (buffer : List Nat) :
    ∀ (n fuel i : Nat) (wire : List WireCall), size ≤ i + 16 * n →
      (0 < n → i + 16 * (n - 1) < size) → i + 16 * n ≤ buffer.length →
      i + 16 * n < 65536 → n + 17 < fuel →
      ∃ chunks : List (List Nat), chunks.length = n ∧ (∀ c ∈ chunks, c.length = 16) ∧
        chunks.flatten = (buffer.drop i).take (16 * n) ∧
        refreshLoop size address buffer fuel i wire =
          some (wire ++ chunks.flatMap (dataCalls address)) := by
  intro n
  induction n with
  | zero =>
    intro fuel i wire hs _ _ _ hf
    obtain ⟨f, rfl⟩ : ∃ f, fuel = f + 1 := ⟨fuel - 1, by omega⟩
    have : ¬ i < size := by omega
    exact ⟨[], rfl, by simp, by simp, by simp [refreshLoop, this]⟩
  | succ n ih =>
    intro fuel i wire hs hlast hb h16 hf
    obtain ⟨f, rfl⟩ : ∃ f, fuel = f + 1 := ⟨fuel - 1, by omega⟩
    have hi : i < size := by
      have := hlast (by omega)
      simp only [Nat.add_sub_cancel] at this
      omega
    obtain ⟨chunks, hlen, hall, hflat, hloop⟩ := ih f (i + 16)
      (wire ++ dataCalls address ((buffer.drop i).take 16)) (by omega)
      (by
        intro hn
        have := hlast (by omega)
        simp only [Nat.add_sub_cancel] at this
        obtain ⟨m, rfl⟩ : ∃ m, n = m + 1 := ⟨n - 1, by omega⟩
        simp only [Nat.add_sub_cancel]
        omega)
      (by omega) (by omega) (by omega)
    refine ⟨((buffer.drop i).take 16) :: chunks, by simp [hlen], ?_, ?_, ?_⟩
    · intro c hc
      rcases List.mem_cons.mp hc with rfl | hc
      · rw [List.length_take, List.length_drop]
        omega
      · exact hall c hc
    · rw [List.flatten_cons, hflat]
      have : 16 * (n + 1) = 16 + 16 * n := by omega
      rw [this, List.take_add, List.drop_drop]
    · rw [refreshLoop, if_pos hi]
      simp only []
      rw [writeSixteen_eq buffer 16 f 0 i _ (by omega) (by omega) (by omega) (by omega)]
      have h2 : (i + 16 + 65535) % 65536 = i + 15 := by omega
      have h3 : (i + 15 + 1) % 65536 = i + 16 := by omega
      simp only [h2, h3]
      have hw : wire ++ [WireCall.beginTransmission address, WireCall.write 0x40] ++
          ((buffer.drop i).take 16).map WireCall.write ++ [WireCall.endTransmission] =
          wire ++ dataCalls address ((buffer.drop i).take 16) := by
        simp [dataCalls]
      rw [hw, hloop, List.flatMap_cons, List.append_assoc]

theorem displayFullRefresh_unfold (COLUMNADDR PAGEADDR : Nat) (s : SSD1306Wire) (fuel : Nat) :
    displayFullRefresh COLUMNADDR PAGEADDR fuel s =
      (refreshLoop s.displayBufferSize s._address s.buffer fuel 0
        (s.wire ++ initCalls s._doI2cAutoInit ++ fullWindowCalls COLUMNADDR PAGEADDR s)).map
        (fun wire => { s with wire := wire }) := by
  have hx : x_offset (initI2cIfNeccesary s) = x_offset s := by
    rw [initI2cIfNeccesary_eq]; rfl
  unfold displayFullRefresh
  simp only [hx]
  simp only [sendCommand_eq, initI2cIfNeccesary_eq, fullWindowCalls, geometryCalls]
  cases hg : s.geometry <;>
    simp only [reduceCtorEq, if_true, if_false, sendCommand_eq, List.append_assoc,
      List.append_nil] <;>
    split <;> simp_all

theorem displayFullRefresh_eq (COLUMNADDR PAGEADDR : Nat) (s : SSD1306Wire) (fuel : Nat)
    (hs : s.displayBufferSize ≤ 65520)
    (hb : 16 * ((s.displayBufferSize + 15) / 16) ≤ s.buffer.length)
    (hf : (s.displayBufferSize + 15) / 16 + 18 ≤ fuel) :
    ∃ chunks : List (List Nat), chunks.length = (s.displayBufferSize + 15) / 16 ∧
      (∀ c ∈ chunks, c.length = 16) ∧
      chunks.flatten = s.buffer.take (16 * ((s.displayBufferSize + 15) / 16)) ∧
      displayFullRefresh COLUMNADDR PAGEADDR fuel s =
        some { s with wire := s.wire ++ initCalls s._doI2cAutoInit ++
          fullWindowCalls COLUMNADDR PAGEADDR s ++ chunks.flatMap (dataCalls s._address) } := by
  obtain ⟨chunks, h1, h2, h3, h4⟩ := refreshLoop_eq s.displayBufferSize s._address s.buffer
    ((s.displayBufferSize + 15) / 16) fuel 0
    (s.wire ++ initCalls s._doI2cAutoInit ++ fullWindowCalls COLUMNADDR PAGEADDR s)
    (by omega) (by intro _; omega) (by omega) (by omega) (by omega)
  refine ⟨chunks, h1, h2, by simpa using h3, ?_⟩
  rw [displayFullRefresh_unfold, h4]
  rfl

theorem writeSixteen_some (buffer : List Nat) :
    ∀ (fuel x i : Nat) (wire : List WireCall) (r : Nat × List WireCall), x ≤ 16 →
      writeSixteen buffer fuel x i wire = some r →
      ∃ bytes : List Nat, bytes.length = 16 - x ∧ r.2 = wire ++ bytes.map WireCall.write := by
  intro fuel
  induction fuel with
  | zero => intro x i wire r _ h; simp [writeSixteen] at h
  | succ f ih =>
    intro x i wire r hx h
    rw [writeSixteen] at h
    by_cases hx16 : x < 16
    · rw [if_pos hx16] at h
      have hx1 : (x + 1) % 256 = x + 1 := Nat.mod_eq_of_lt (by omega)
      cases h1 : buffer[i]? with
      | none => simp [h1] at h
      | some v =>
        simp only [h1, hx1] at h
        obtain ⟨bytes, hl, hw⟩ := ih _ _ _ _ (by omega) h
        refine ⟨v :: bytes, by simp only [List.length_cons]; omega, ?_⟩
        rw [hw]
        simp
    · rw [if_neg hx16] at h
      cases h
      exact ⟨[], by simp; omega, by simp⟩

theorem refreshLoop_some (size address : Nat) (buffer : List Nat) :
    ∀ (fuel i : Nat) (wire w : List WireCall),
      refreshLoop size address buffer fuel i wire = some w →
      ∃ chunks : List (List Nat), (∀ c ∈ chunks, c.length = 16) ∧
        w = wire ++ chunks.flatMap (dataCalls address) := by
  intro fuel
  induction fuel with
  | zero => intro i wire w h; simp [refreshLoop] at h
  | succ f ih =>
    intro i wire w h
    rw [refreshLoop] at h
    by_cases hi : i < size
    · rw [if_pos hi] at h
      simp only [] at h
      cases h1 : writeSixteen buffer f 0 i
          (wire ++ [WireCall.beginTransmission address, WireCall.write 0x40]) with
      | none => simp [h1] at h
      | some r =>
        obtain ⟨bytes, hl, hw⟩ := writeSixteen_some buffer f 0 i _ r (by omega) h1
        simp only [h1] at h
        obtain ⟨chunks, hall, hc⟩ := ih _ _ _ h
        refine ⟨bytes :: chunks, ?_, ?_⟩
        · intro c hc'
          rcases List.mem_cons.mp hc' with rfl | hc'
          · omega
          · exact hall c hc'
        · rw [hc, hw]
          simp [dataCalls]
    · rw [if_neg hi] at h
      cases h
      exact ⟨[], by simp, by simp⟩

theorem displayFullRefresh_some (COLUMNADDR PAGEADDR : Nat) (s s' : SSD1306Wire) (fuel : Nat)
    (h : displayFullRefresh COLUMNADDR PAGEADDR fuel s = some s') :
    ∃ chunks : List (List Nat), (∀ c ∈ chunks, c.length = 16) ∧
      s' = { s with wire := s.wire ++ initCalls s._doI2cAutoInit ++
        fullWindowCalls COLUMNADDR PAGEADDR s ++ chunks.flatMap (dataCalls s._address) } := by
  rw [displayFullRefresh_unfold] at h
  cases h1 : refreshLoop s.displayBufferSize s._address s.buffer fuel 0
      (s.wire ++ initCalls s._doI2cAutoInit ++ fullWindowCalls COLUMNADDR PAGEADDR s) with
  | none => rw [h1] at h; simp at h
  | some w =>
    obtain ⟨chunks, hall, hw⟩ := refreshLoop_some _ _ _ _ _ _ _ h1
    rw [h1] at h
    refine ⟨chunks, hall, ?_⟩
    rw [← hw]
    exact (Option.some.inj h).symm

theorem writeSixteen_succ (buffer : List Nat) :
    ∀ (fuel x i : Nat) (wire : List WireCall) (r : Nat × List WireCall),
      writeSixteen buffer fuel x i wire = some r →
      writeSixteen buffer (fuel + 1) x i wire = some r := by
  intro fuel
  induction fuel with
  | zero => intro x i wire r h; simp [writeSixteen] at h
  | succ f ih =>
    intro x i wire r h
    rw [writeSixteen] at h ⊢
    by_cases hx : x < 16
    · rw [if_pos hx] at h ⊢
      cases h1 : buffer[i]? with
      | none => simp [h1] at h
      | some v =>
        simp only [h1] at h ⊢
        exact ih _ _ _ _ h
    · rw [if_neg hx] at h ⊢
      exact h

theorem refreshLoop_succ (size address : Nat) (buffer : List Nat) :
    ∀ (fuel i : Nat) (wire w : List WireCall),
      refreshLoop size address buffer fuel i wire = some w →
      refreshLoop size address buffer (fuel + 1) i wire = some w := by
  intro fuel
  induction fuel with
  | zero => intro i wire w h; simp [refreshLoop] at h
  | succ f ih =>
    intro i wire w h
    rw [refreshLoop] at h ⊢
    by_cases hi : i < size
    · rw [if_pos hi] at h ⊢
      simp only [] at h ⊢
      cases h1 : writeSixteen buffer f 0 i
          (wire ++ [WireCall.beginTransmission address, WireCall.write 0x40]) with
      | none => simp [h1] at h
      | some r =>
        rw [writeSixteen_succ buffer f 0 i _ r h1]
        simp only [h1] at h ⊢
        exact ih _ _ _ h
    · rw [if_neg hi] at h ⊢
      exact h

theorem displayFullRefresh_succ (COLUMNADDR PAGEADDR : Nat) (s s' : SSD1306Wire) (fuel : Nat)
    (h : displayFullRefresh COLUMNADDR PAGEADDR fuel s = some s') :
    displayFullRefresh COLUMNADDR PAGEADDR (fuel + 1) s = some s' := by
  rw [displayFullRefresh_unfold] at h ⊢
  cases h1 : refreshLoop s.displayBufferSize s._address s.buffer fuel 0
      (s.wire ++ initCalls s._doI2cAutoInit ++ fullWindowCalls COLUMNADDR PAGEADDR s) with
  | none => rw [h1] at h; simp at h
  | some w =>
    rw [refreshLoop_succ _ _ _ _ _ _ _ h1]
    rw [h1] at h
    exact h

theorem displayFullRefresh_mono (COLUMNADDR PAGEADDR : Nat) (s s' : SSD1306Wire)
    (fuel fuel' : Nat) (hle : fuel ≤ fuel')
    (h : displayFullRefresh COLUMNADDR PAGEADDR fuel s = some s') :
    displayFullRefresh COLUMNADDR PAGEADDR fuel' s = some s' := by
  induction hle with
  | refl => exact h
  | step _ ih => exact displayFullRefresh_succ _ _ _ _ _ ih

/-- Whenever the differential `display` returns, its scan returned the fold
`scanBounds` and the shadow buffer `scannedBack`. -/
theorem displayDoubleBuffer_scan_eq (COLUMNADDR PAGEADDR : Nat) (s s' : SSD1306Wire)
    (fuel : Nat) (h : displayDoubleBuffer COLUMNADDR PAGEADDR fuel s = some s') :
    scan fuel (initI2cIfNeccesary s) = some (scanBounds s, scannedBack s) := by
  obtain ⟨r, hr⟩ := displayDoubleBuffer_scan _ _ _ _ _ h
  rw [scan_initI2cIfNeccesary, hr, scan_some_eq s fuel r hr]

theorem scanBounds_minimal (s : SSD1306Wire) (hW : s.width ≤ 255) (hP : s.height / 8 ≤ 255)
    (h : ∃ x y, DiffCell s x y) : MinimalRectangle s (scanBounds s) := by
  obtain ⟨a1, a2, a3, a4⟩ := scanBounds_attain s hW hP h
  exact ⟨⟨a1, fun x y hd => (scanBounds_cover s x y hd).1⟩,
    ⟨a2, fun x y hd => (scanBounds_cover s x y hd).2.1⟩,
    ⟨a3, fun x y hd => (scanBounds_cover s x y hd).2.2.1⟩,
    ⟨a4, fun x y hd => (scanBounds_cover s x y hd).2.2.2⟩⟩

theorem toUint8_x_offset (s : SSD1306Wire) (hW : s.width ≤ 128) (x : Nat)
    (hx : x < s.width) : toUint8 (x_offset s + x) = (128 - s.width) / 2 + x := by
  unfold toUint8 x_offset
  rw [Int.tdiv_eq_ediv (by omega) (by norm_num)]
  omega

theorem cell_index_lt (W pages x y : Nat) (hx : x < W) (hy : y < pages) :
    x + y * W < W * pages := by
  have : (y + 1) * W ≤ pages * W := Nat.mul_le_mul_right W hy
  rw [Nat.add_mul, Nat.one_mul, Nat.mul_comm pages] at this
  omega

theorem scannedBack_getElem? (s : SSD1306Wire)
    (hb : s.width * (s.height / 8) ≤ s.buffer.length) (pos : Nat)
    (hpos : pos < s.width * (s.height / 8)) :
    (scannedBack s)[pos]? = s.buffer[pos]? := by
  unfold scannedBack
  rw [List.getElem?_append_left (by rw [List.length_take]; omega),
    List.getElem?_take_of_lt hpos]

theorem scannedBack_length (s : SSD1306Wire)
    (hb : s.width * (s.height / 8) ≤ s.buffer.length)
    (hk : s.width * (s.height / 8) ≤ s.buffer_back.length) :
    (scannedBack s).length = s.buffer_back.length := by
  unfold scannedBack
  rw [List.length_append, List.length_take, List.length_drop]
  omega

theorem rowBytes_length (buffer : List Nat) (W minBoundX maxBoundX y : Nat) :
    (rowBytes buffer W minBoundX maxBoundX y).length = maxBoundX + 1 - minBoundX := by
  simp [rowBytes]

theorem rectBytes_length (s : SSD1306Wire) (b : Bounds) :
    (rectBytes s b).length =
      (b.maxBoundX + 1 - b.minBoundX) * (b.maxBoundY + 1 - b.minBoundY) := by
  unfold rectBytes
  rw [List.length_flatMap]
  have : (List.length ∘ rowBytes s.buffer s.width b.minBoundX b.maxBoundX) =
      fun _ => b.maxBoundX + 1 - b.minBoundX := by
    funext y
    exact rowBytes_length _ _ _ _ _
  rw [this, List.map_const', List.sum_replicate, List.length_range', smul_eq_mul, Nat.mul_comm]

theorem nodup_cells (W pages : Nat) : (cells W pages).Nodup := by
  unfold cells
  rw [List.nodup_flatMap]
  constructor
  · intro y _
    exact List.Nodup.map (fun a b h => by simpa using h) (List.nodup_range W)
  · refine List.Pairwise.imp ?_ (List.pairwise_lt_range pages)
    intro a b hab
    simp only [Function.onFun, List.Disjoint, List.mem_map, List.mem_range]
    rintro c ⟨x1, -, rfl⟩ ⟨x2, -, h2⟩
    have : b = a := congrArg Prod.snd h2
    omega

theorem mem_rectCells (b : Bounds) (x y : Nat) (h : InRect b x y) : (x, y) ∈ rectCells b := by
  obtain ⟨h1, h2, h3, h4⟩ := h
  simp only [rectCells, List.mem_flatMap, List.mem_map, List.mem_range', Prod.mk.injEq]
  exact ⟨y, ⟨y - b.minBoundY, by omega, by omega⟩, x, ⟨x - b.minBoundX, by omega, by omega⟩,
    rfl, rfl⟩

theorem rectCells_length (b : Bounds) :
    (rectCells b).length =
      (b.maxBoundX - b.minBoundX + 1) * (b.maxBoundY - b.minBoundY + 1) := by
  unfold rectCells
  rw [List.length_flatMap]
  have : (List.length ∘ fun (y : Nat) =>
      (List.range' b.minBoundX (b.maxBoundX - b.minBoundX + 1)).map (fun x => (x, y))) =
      fun (_ : Nat) => b.maxBoundX - b.minBoundX + 1 := by
    funext y
    simp
  rw [this, List.map_const', List.sum_replicate, List.length_range', smul_eq_mul, Nat.mul_comm]

theorem diffCells_length_le (s : SSD1306Wire) :
    (diffCells s).length ≤
      ((scanBounds s).maxBoundX - (scanBounds s).minBoundX + 1) *
        ((scanBounds s).maxBoundY - (scanBounds s).minBoundY + 1) := by
  rw [← rectCells_length]
  apply List.Subperm.length_le
  apply List.Nodup.subperm
  · exact List.Nodup.filter _ (nodup_cells _ _)
  · intro c hc
    simp only [diffCells, List.mem_filter, decide_eq_true_eq] at hc
    exact mem_rectCells _ c.1 c.2 (scanBounds_cover s c.1 c.2 hc.2)

theorem mem_rectBytes (s : SSD1306Wire) (b : Bounds) (hx : b.minBoundX ≤ b.maxBoundX)
    (hy : b.minBoundY ≤ b.maxBoundY)
    (hin : ∀ x y, InRect b x y → x + y * s.width < s.buffer.length) (v : Nat)
    (hv : v ∈ rectBytes s b) :
    ∃ x y, InRect b x y ∧ s.buffer[x + y * s.width]? = some v := by
  simp only [rectBytes, rowBytes, List.mem_flatMap, List.mem_map, List.mem_range'] at hv
  obtain ⟨y, ⟨j, hj, rfl⟩, x, ⟨i, hi, rfl⟩, hval⟩ := hv
  have hr : InRect b (b.minBoundX + 1 * i) (b.minBoundY + 1 * j) :=
    ⟨by omega, by omega, by omega, by omega⟩
  refine ⟨_, _, hr, ?_⟩
  have hlt := hin _ _ hr
  rw [List.getElem?_eq_getElem hlt] at hval ⊢
  simpa using hval

/-- Whenever `display` returns, in either mode, it has added to the trace the
calls of `initI2cIfNeccesary`, then some calls of `sendCommand`, then data
transactions. -/
theorem display_trace_shape (mode : Bool) (COLUMNADDR PAGEADDR : Nat) (t s' : SSD1306Wire)
    (fuel : Nat) (h : display mode COLUMNADDR PAGEADDR fuel t = some s') :
    ∃ (commands : List Nat) (chunks : List (List Nat)),
      s'.wire = t.wire ++ initCalls t._doI2cAutoInit ++
        commands.flatMap (commandCalls t._doI2cAutoInit t._address) ++
        chunks.flatMap (dataCalls t._address) := by
  cases mode with
  | true =>
    simp only [display, if_true] at h
    rcases displayDoubleBuffer_cases _ _ _ _ _ h with
      ⟨-, -, rfl⟩ | ⟨-, -, chunks, -, -, -, rfl⟩
    · exact ⟨[], [], by simp⟩
    · exact ⟨[COLUMNADDR, toUint8 (x_offset t + (scanBounds t).minBoundX),
        toUint8 (x_offset t + (scanBounds t).maxBoundX), PAGEADDR,
        (scanBounds t).minBoundY, (scanBounds t).maxBoundY], chunks, by
          simp [windowCalls, List.flatMap_cons]⟩
  | false =>
    simp only [display, Bool.false_eq_true, if_false] at h
    obtain ⟨chunks, -, rfl⟩ := displayFullRefresh_some _ _ _ _ _ h
    cases hg : t.geometry
    · exact ⟨[COLUMNADDR, toUint8 (x_offset t),
        toUint8 (x_offset t + ((t.width : Int) - 1)), PAGEADDR, 0x0, 0x7], chunks, by
          simp [fullWindowCalls, geometryCalls, hg, List.flatMap_cons]⟩
    · exact ⟨[COLUMNADDR, toUint8 (x_offset t),
        toUint8 (x_offset t + ((t.width : Int) - 1)), PAGEADDR, 0x0, 0x3], chunks, by
          simp [fullWindowCalls, geometryCalls, hg, List.flatMap_cons]⟩
    · exact ⟨[COLUMNADDR, toUint8 (x_offset t),
        toUint8 (x_offset t + ((t.width : Int) - 1)), PAGEADDR, 0x0], chunks, by
          simp [fullWindowCalls, geometryCalls, hg, List.flatMap_cons]⟩

theorem begin_not_mem_transactions (address : Nat) (commands : List Nat)
    (chunks : List (List Nat)) :
    WireCall.begin ∉ commands.flatMap (commandTransaction address) ++
      chunks.flatMap (dataCalls address) := by
  simp [List.mem_flatMap, commandTransaction, dataCalls]

/-- Whenever `display` returns, in either mode, it has changed nothing but the
shadow buffer and the bus trace. -/
theorem display_frame (mode : Bool) (COLUMNADDR PAGEADDR : Nat) (t s' : SSD1306Wire)
    (fuel : Nat) (h : display mode COLUMNADDR PAGEADDR fuel t = some s') :
    s' = { t with buffer_back := s'.buffer_back, wire := s'.wire } := by
  cases mode with
  | true =>
    simp only [display, if_true] at h
    rcases displayDoubleBuffer_cases _ _ _ _ _ h with
      ⟨-, -, rfl⟩ | ⟨-, -, chunks, -, -, -, rfl⟩ <;> rfl
  | false =>
    simp only [display, Bool.false_eq_true, if_false] at h
    obtain ⟨chunks, -, rfl⟩ := displayFullRefresh_some _ _ _ _ _ h
    rfl

theorem display_run (mode : Bool) (COLUMNADDR PAGEADDR : Nat) (t s' : SSD1306Wire)
    (fuel : Nat) (h : display mode COLUMNADDR PAGEADDR fuel t = some s') :
    ∃ run : List Nat × List (List Nat),
      s'.wire = t.wire ++ displayCalls t._doI2cAutoInit t._address run := by
  obtain ⟨commands, chunks, hw⟩ := display_trace_shape _ _ _ _ _ _ h
  exact ⟨(commands, chunks), by rw [hw]; simp [displayCalls]⟩

/-- A session keeps the flag and the address, and adds to the trace the calls
of one `display()` for each frame. -/
theorem displayFrames_trace (mode : Bool) (COLUMNADDR PAGEADDR fuel : Nat) :
    ∀ (frames : List (List Nat)) (t s' : SSD1306Wire),
      displayFrames mode COLUMNADDR PAGEADDR fuel frames t = some s' →
      s'._doI2cAutoInit = t._doI2cAutoInit ∧ s'._address = t._address ∧
      ∃ runs : List (List Nat × List (List Nat)), runs.length = frames.length ∧
        s'.wire = t.wire ++ runs.flatMap (displayCalls t._doI2cAutoInit t._address) := by
  intro frames
  induction frames with
  | nil =>
    intro t s' h
    simp only [displayFrames, Option.some.injEq] at h
    subst h
    exact ⟨rfl, rfl, [], rfl, by simp⟩
  | cons frame frames ih =>
    intro t s' h
    rw [displayFrames] at h
    cases h1 : display mode COLUMNADDR PAGEADDR fuel { t with buffer := frame } with
    | none => simp [h1] at h
    | some s1 =>
      simp only [h1] at h
      have hf := display_frame _ _ _ _ _ _ h1
      obtain ⟨run, hrun⟩ := display_run _ _ _ _ _ _ h1
      have hflag : s1._doI2cAutoInit = t._doI2cAutoInit := by rw [hf]
      have haddr : s1._address = t._address := by rw [hf]
      obtain ⟨e1, e2, runs, hlen, hw⟩ := ih s1 s' h
      refine ⟨e1.trans hflag, e2.trans haddr, run :: runs, by simp [hlen], ?_⟩
      rw [hw, hrun, hflag, haddr, List.flatMap_cons]
      simp only [List.append_assoc]

theorem begin_not_mem_runs (address : Nat) (runs : List (List Nat × List (List Nat))) :
    WireCall.begin ∉ runs.flatMap (displayCalls false address) := by
  simp [List.mem_flatMap, displayCalls, initCalls, commandCalls, commandTransaction, dataCalls]

theorem displayFrames_total_doubleBuffer (COLUMNADDR PAGEADDR fuel : Nat) :
    ∀ (frames : List (List Nat)) (t : SSD1306Wire), t.width ≤ 255 → t.height / 8 ≤ 255 →
      t.width * (t.height / 8) ≤ t.buffer_back.length →
      (∀ frame ∈ frames, t.width * (t.height / 8) ≤ frame.length) →
      t.width + t.height / 8 + 2 ≤ fuel →
      ∃ s', displayFrames true COLUMNADDR PAGEADDR fuel frames t = some s' := by
  intro frames
  induction frames with
  | nil => intro t _ _ _ _ _; exact ⟨t, rfl⟩
  | cons frame frames ih =>
    intro t hW hP hk hall hf
    have hv : ValidDoubleBuffer { t with buffer := frame } :=
      ⟨hW, hP, hall frame (List.mem_cons_self _ _), hk⟩
    obtain ⟨s1, h1⟩ := displayDoubleBuffer_total COLUMNADDR PAGEADDR
      { t with buffer := frame } fuel hv hf
    have hback : s1.buffer_back = scannedBack { t with buffer := frame } := by
      rcases displayDoubleBuffer_cases _ _ _ _ _ h1 with
        ⟨-, -, rfl⟩ | ⟨-, -, chunks, -, -, -, rfl⟩ <;> rfl
    have hfr := display_frame true COLUMNADDR PAGEADDR { t with buffer := frame } s1 fuel
      (by simp only [display, if_true]; exact h1)
    have hlen : s1.buffer_back.length = t.buffer_back.length := by
      rw [hback]
      exact scannedBack_length { t with buffer := frame } hv.2.2.1 hv.2.2.2
    have hw : s1.width = t.width := by rw [hfr]
    have hh : s1.height = t.height := by rw [hfr]
    obtain ⟨s', h'⟩ := ih s1 (by rw [hw]; exact hW) (by rw [hh]; exact hP)
      (by rw [hw, hh, hlen]; exact hk)
      (by rw [hw, hh]; exact fun f hfm => hall f (List.mem_cons_of_mem _ hfm))
      (by rw [hw, hh]; exact hf)
    refine ⟨s', ?_⟩
    rw [displayFrames]
    simp only [display, if_true, h1]
    exact h'

theorem displayFrames_total_fullRefresh (COLUMNADDR PAGEADDR fuel : Nat) :
    ∀ (frames : List (List Nat)) (t : SSD1306Wire), t.displayBufferSize ≤ 65520 →
      (∀ frame ∈ frames, 16 * ((t.displayBufferSize + 15) / 16) ≤ frame.length) →
      (t.displayBufferSize + 15) / 16 + 18 ≤ fuel →
      ∃ s', displayFrames false COLUMNADDR PAGEADDR fuel frames t = some s' := by
  intro frames
  induction frames with
  | nil => intro t _ _ _; exact ⟨t, rfl⟩
  | cons frame frames ih =>
    intro t hs hall hf
    obtain ⟨chunks, -, -, -, h1⟩ := displayFullRefresh_eq COLUMNADDR PAGEADDR
      { t with buffer := frame } fuel hs (hall frame (List.mem_cons_self _ _)) hf
    obtain ⟨s', h'⟩ := ih
      { t with buffer := frame, wire := t.wire ++ initCalls t._doI2cAutoInit ++
          fullWindowCalls COLUMNADDR PAGEADDR { t with buffer := frame } ++
          chunks.flatMap (dataCalls t._address) }
      hs (fun f hfm => hall f (List.mem_cons_of_mem _ hfm)) hf
    refine ⟨s', ?_⟩
    rw [displayFrames]
    simp only [display, Bool.false_eq_true, if_false, h1]
    exact h'

/-! ## The claims -/

/-- C9: for every command byte `c`, `sendCommand(c)` makes exactly one I2C
transaction to the configured address, `beginTransmission(_address)`,
`write(0x80)`, `write(c)`, `endTransmission()` in this order and no other
write; the only other bus call is one `begin()` in front of it, made exactly
when `_doI2cAutoInit` is set, which is all `initI2cIfNeccesary` does. Neither
function changes anything but the bus trace. -/
theorem sendCommand_one_transaction (s : SSD1306Wire) (c : Nat) :
    (sendCommand s c).wire =
        s.wire ++ (if s._doI2cAutoInit = true then [WireCall.begin] else []) ++
          [WireCall.beginTransmission s._address, WireCall.write 0x80, WireCall.write c,
           WireCall.endTransmission] ∧
      (initI2cIfNeccesary s).wire =
        s.wire ++ (if s._doI2cAutoInit = true then [WireCall.begin] else []) ∧
      sendCommand s c = { s with wire := (sendCommand s c).wire } ∧
      initI2cIfNeccesary s = { s with wire := (initI2cIfNeccesary s).wire } := by
  refine ⟨?_, ?_, ?_, ?_⟩
  · rw [sendCommand_eq]
    simp [commandCalls, commandTransaction, initCalls]
  · rw [initI2cIfNeccesary_eq]
    simp [initCalls]
  · rw [sendCommand_eq]
  · rw [initI2cIfNeccesary_eq]

/-- C1: in differential mode, for every width up to 128, every page count up to
8 and every pair of buffers of size `width * (height / 8)` that differ in at
least one cell, the rectangle that the scan of `display` computes is the least
rectangle holding every differing cell (each bound is attained by a differing
cell and bounds them all; a single differing cell `(x0, y0)` gives
`minBoundX = maxBoundX = x0` and `minBoundY = maxBoundY = y0`), and the six
commands sent are `COLUMNADDR`, `x_offset + minBoundX`, `x_offset + maxBoundX`,
`PAGEADDR`, `minBoundY`, `maxBoundY` with `x_offset = (128 - width) / 2`,
followed by data transactions only. -/
theorem display_bounding_rectangle (COLUMNADDR PAGEADDR : Nat) (s : SSD1306Wire) (fuel : Nat)
    (hW : s.width ≤ 128) (hP : s.height / 8 ≤ 8)
    (hb : s.buffer.length = s.width * (s.height / 8))
    (hk : s.buffer_back.length = s.width * (s.height / 8))
    (hd : ∃ x y, DiffCell s x y) (hf : s.width + s.height / 8 + 2 ≤ fuel) :
    ∃ (b : Bounds) (back : List Nat) (s' : SSD1306Wire) (chunks : List (List Nat)),
      scan fuel (initI2cIfNeccesary s) = some (b, back) ∧
      MinimalRectangle s b ∧
      (∀ x0 y0, (∀ x y, DiffCell s x y ↔ x = x0 ∧ y = y0) →
        b.minBoundX = x0 ∧ b.maxBoundX = x0 ∧ b.minBoundY = y0 ∧ b.maxBoundY = y0) ∧
      displayDoubleBuffer COLUMNADDR PAGEADDR fuel s = some s' ∧
      s'.wire = s.wire ++ initCalls s._doI2cAutoInit ++
        commandCalls s._doI2cAutoInit s._address COLUMNADDR ++
        commandCalls s._doI2cAutoInit s._address ((128 - s.width) / 2 + b.minBoundX) ++
        commandCalls s._doI2cAutoInit s._address ((128 - s.width) / 2 + b.maxBoundX) ++
        commandCalls s._doI2cAutoInit s._address PAGEADDR ++
        commandCalls s._doI2cAutoInit s._address b.minBoundY ++
        commandCalls s._doI2cAutoInit s._address b.maxBoundY ++
        chunks.flatMap (dataCalls s._address) := by
  have hv : ValidDoubleBuffer s := ⟨by omega, by omega, by omega, by omega⟩
  obtain ⟨chunks, -, -, -, hdisp⟩ :=
    displayDoubleBuffer_changed COLUMNADDR PAGEADDR s fuel hv hf hd
  have hmin := scanBounds_minimal s (by omega) (by omega) hd
  obtain ⟨i1, i2, i3, i4⟩ := scanBounds_inside s (by omega) (by omega) hd
  refine ⟨scanBounds s, scannedBack s, _, chunks,
    displayDoubleBuffer_scan_eq _ _ _ _ _ hdisp, hmin, ?_, hdisp, ?_⟩
  · intro x0 y0 hone
    obtain ⟨⟨⟨y1, h1⟩, -⟩, ⟨⟨y2, h2⟩, -⟩, ⟨⟨x3, h3⟩, -⟩, ⟨⟨x4, h4⟩, -⟩⟩ := hmin
    exact ⟨((hone _ _).mp h1).1, ((hone _ _).mp h2).1, ((hone _ _).mp h3).2,
      ((hone _ _).mp h4).2⟩
  · simp only [windowCalls]
    rw [toUint8_x_offset s hW _ (by omega), toUint8_x_offset s hW _ i2]
    simp only [List.append_assoc]

/-- Witness of C1: on `onePixel`, whose single differing cell is column 10 of
page 2, the computed rectangle is `minBoundX = maxBoundX = 10`,
`minBoundY = maxBoundY = 2`. -/
theorem display_bounding_rectangle_witness :
    DiffCell onePixel 10 2 ∧
    ∃ b back, scan 21 (initI2cIfNeccesary onePixel) = some (b, back) ∧
      b.minBoundX = 10 ∧ b.maxBoundX = 10 ∧ b.minBoundY = 2 ∧ b.maxBoundY = 2 := by
  have hd : DiffCell onePixel 10 2 := by decide
  have hone : ∀ x y, DiffCell onePixel x y ↔ x = 10 ∧ y = 2 := by
    have key : ∀ x, x < 16 → ∀ y, y < 3 →
        (onePixel.buffer[x + y * 16]? ≠ onePixel.buffer_back[x + y * 16]? ↔
          x = 10 ∧ y = 2) := by decide
    intro x y
    constructor
    · rintro ⟨hx, hy, hne⟩
      exact (key x hx y hy).mp hne
    · rintro ⟨rfl, rfl⟩
      exact hd
  obtain ⟨b, back, s', chunks, hscan, -, hsingle, -, -⟩ :=
    display_bounding_rectangle 0x21 0x22 onePixel 21 (by decide) (by decide) (by decide)
      (by decide) ⟨10, 2, hd⟩ (by decide)
  exact ⟨hd, b, back, hscan, hsingle 10 2 hone⟩

/-- C2: in differential mode, for every pixel buffer `B = buffer` and every
prior shadow buffer, after `display()` completes the shadow buffer holds `B` at
every cell of the screen, in particular inside the computed rectangle; at a
cell outside the rectangle the shadow buffer is unchanged and was already equal
to `B`; so the shadow buffer equals `B` (as a whole when both have the size
`width * (height / 8)`), and `B` itself is not modified. `display()` does
complete on every screen whose width and page count fit the 8-bit counters and
whose buffers hold every cell. -/
theorem display_updates_shadow (COLUMNADDR PAGEADDR : Nat) (s : SSD1306Wire) :
    (ValidDoubleBuffer s → ∀ fuel, s.width + s.height / 8 + 2 ≤ fuel →
      ∃ s', displayDoubleBuffer COLUMNADDR PAGEADDR fuel s = some s') ∧
    ∀ fuel s', displayDoubleBuffer COLUMNADDR PAGEADDR fuel s = some s' →
      ∃ b back, scan fuel (initI2cIfNeccesary s) = some (b, back) ∧
        s'.buffer = s.buffer ∧ s'.buffer_back = back ∧
        s'.buffer_back.length = s.buffer_back.length ∧
        (∀ x y, x < s.width → y < s.height / 8 →
          s'.buffer_back[x + y * s.width]? = s.buffer[x + y * s.width]? ∧
          (¬ InRect b x y →
            s'.buffer_back[x + y * s.width]? = s.buffer_back[x + y * s.width]? ∧
            s.buffer_back[x + y * s.width]? = s.buffer[x + y * s.width]?)) ∧
        (s.buffer.length = s.width * (s.height / 8) →
          s.buffer_back.length = s.width * (s.height / 8) → s'.buffer_back = s.buffer) := by
  refine ⟨fun hv fuel hf => displayDoubleBuffer_total _ _ s fuel hv hf, ?_⟩
  intro fuel s' h
  have hscan := displayDoubleBuffer_scan_eq _ _ _ _ _ h
  have hs' : s'.buffer = s.buffer ∧ s'.buffer_back = scannedBack s ∧
      (s.height / 8 = 0 ∨ ValidDoubleBuffer s) := by
    rcases displayDoubleBuffer_cases _ _ _ _ _ h with ⟨hv, -, rfl⟩ | ⟨hv, -, chunks, -, -, -, rfl⟩
    · exact ⟨rfl, rfl, hv⟩
    · exact ⟨rfl, rfl, Or.inr hv⟩
  obtain ⟨e1, e2, hv⟩ := hs'
  refine ⟨scanBounds s, scannedBack s, hscan, e1, e2, ?_, ?_, ?_⟩
  · rw [e2]
    rcases hv with h0 | ⟨-, -, hb, hk⟩
    · simp [scannedBack, h0]
    · exact scannedBack_length s hb hk
  · intro x y hx hy
    rcases hv with h0 | ⟨-, -, hb, hk⟩
    · omega
    · have hpos := cell_index_lt s.width (s.height / 8) x y hx hy
      have hget := scannedBack_getElem? s hb _ hpos
      rw [e2]
      refine ⟨hget, fun hout => ?_⟩
      have heq : s.buffer[x + y * s.width]? = s.buffer_back[x + y * s.width]? := by
        by_contra hne
        exact hout (scanBounds_cover s x y ⟨hx, hy, hne⟩)
      exact ⟨hget.trans heq, heq.symm⟩
  · intro hb hk
    rw [e2, scannedBack, ← hb, List.take_length, List.drop_eq_nil_of_le (by omega),
      List.append_nil]

/-- Witness of C2: `display()` completes on `diagonal`, and afterwards the
shadow buffer equals `buffer`. -/
theorem display_updates_shadow_witness :
    ∃ s', displayDoubleBuffer 0x21 0x22 6 diagonal = some s' ∧
      s'.buffer_back = diagonal.buffer ∧ s'.buffer = diagonal.buffer := by
  obtain ⟨s', hs'⟩ := (display_updates_shadow 0x21 0x22 diagonal).1 (by decide) 6 (by decide)
  obtain ⟨b, back, -, h1, -, -, -, h2⟩ := (display_updates_shadow 0x21 0x22 diagonal).2 6 s' hs'
  exact ⟨s', hs', h2 (by decide) (by decide), h1⟩

/-- C3: in differential mode, if `buffer` equals the shadow buffer at every
cell at entry, and in particular when `display()` runs twice in a row without a
write to `buffer` in between, `display()` issues no bus transaction: whatever
the auto-init flag, the calls it adds to the bus trace are those of
`initI2cIfNeccesary` alone (at most one `begin()`), so no `beginTransmission`,
no `write` and no `endTransmission`. -/
theorem display_unchanged_no_transaction (COLUMNADDR PAGEADDR : Nat) (s : SSD1306Wire) :
    (ValidDoubleBuffer s → ∀ fuel, s.width + s.height / 8 + 2 ≤ fuel →
      ∃ s1 s2, displayDoubleBuffer COLUMNADDR PAGEADDR fuel s = some s1 ∧
        displayDoubleBuffer COLUMNADDR PAGEADDR fuel s1 = some s2) ∧
    (∀ fuel s', displayDoubleBuffer COLUMNADDR PAGEADDR fuel s = some s' →
      (∀ x y, x < s.width → y < s.height / 8 →
        s.buffer[x + y * s.width]? = s.buffer_back[x + y * s.width]?) →
      s'.wire = s.wire ++ initCalls s._doI2cAutoInit) ∧
    (∀ fuel fuel' s1 s2, displayDoubleBuffer COLUMNADDR PAGEADDR fuel s = some s1 →
      displayDoubleBuffer COLUMNADDR PAGEADDR fuel' s1 = some s2 →
      s2.wire = s1.wire ++ initCalls s._doI2cAutoInit) ∧
    (∀ c ∈ initCalls s._doI2cAutoInit, c = WireCall.begin) := by
  have hsame : ∀ (t : SSD1306Wire) fuel t',
      displayDoubleBuffer COLUMNADDR PAGEADDR fuel t = some t' →
      (∀ x y, ¬ DiffCell t x y) → t'.wire = t.wire ++ initCalls t._doI2cAutoInit := by
    intro t fuel t' h hn
    rcases displayDoubleBuffer_cases _ _ _ _ _ h with ⟨-, -, rfl⟩ | ⟨-, ⟨x, y, hxy⟩, -⟩
    · rfl
    · exact absurd hxy (hn x y)
  have hnext : ∀ fuel s1, displayDoubleBuffer COLUMNADDR PAGEADDR fuel s = some s1 →
      s1._doI2cAutoInit = s._doI2cAutoInit ∧ (ValidDoubleBuffer s → ValidDoubleBuffer s1) ∧
        ∀ x y, ¬ DiffCell s1 x y := by
    intro fuel s1 h
    have hs1 : s1 = { s with buffer_back := scannedBack s, wire := s1.wire } ∧
        (s.height / 8 = 0 ∨ ValidDoubleBuffer s) := by
      rcases displayDoubleBuffer_cases _ _ _ _ _ h with
        ⟨hv, -, rfl⟩ | ⟨hv, -, chunks, -, -, -, rfl⟩
      · exact ⟨rfl, hv⟩
      · exact ⟨rfl, Or.inr hv⟩
    obtain ⟨e, hv⟩ := hs1
    refine ⟨by rw [e], ?_, ?_⟩
    · rintro ⟨hW, hP, hb, hk⟩
      rw [e]
      exact ⟨hW, hP, hb, by
        show s.width * (s.height / 8) ≤ (scannedBack s).length
        rw [scannedBack_length s hb hk]; exact hk⟩
    · intro x y hd
      rw [e] at hd
      obtain ⟨hx, hy, hne⟩ := hd
      rcases hv with h0 | ⟨-, -, hb, -⟩
      · have : y < s.height / 8 := hy
        omega
      · exact hne (scannedBack_getElem? s hb _
          (cell_index_lt s.width (s.height / 8) x y hx hy)).symm
  refine ⟨?_, ?_, ?_, ?_⟩
  · intro hv fuel hf
    obtain ⟨s1, h1⟩ := displayDoubleBuffer_total COLUMNADDR PAGEADDR s fuel hv hf
    obtain ⟨-, hv1, -⟩ := hnext fuel s1 h1
    have hdim : s1.width + s1.height / 8 + 2 ≤ fuel := by
      rcases displayDoubleBuffer_cases _ _ _ _ _ h1 with
        ⟨-, -, rfl⟩ | ⟨-, -, chunks, -, -, -, rfl⟩ <;> exact hf
    obtain ⟨s2, h2⟩ := displayDoubleBuffer_total COLUMNADDR PAGEADDR s1 fuel (hv1 hv) hdim
    exact ⟨s1, s2, h1, h2⟩
  · intro fuel s' h heq
    exact hsame s fuel s' h (fun x y hd => hd.2.2 (heq x y hd.1 hd.2.1))
  · intro fuel fuel' s1 s2 h1 h2
    obtain ⟨hauto, -, hn⟩ := hnext fuel s1 h1
    rw [← hauto]
    exact hsame s1 fuel' s2 h2 hn
  · intro c hc
    unfold initCalls at hc
    split at hc
    · exact List.mem_singleton.mp hc
    · cases hc

/-- Witness of C3: two calls of `display()` in a row on `diagonal`; the second
one adds nothing to the bus trace. -/
theorem display_unchanged_no_transaction_witness :
    ∃ s1 s2, displayDoubleBuffer 0x21 0x22 6 diagonal = some s1 ∧
      displayDoubleBuffer 0x21 0x22 6 s1 = some s2 ∧ s2.wire = s1.wire := by
  obtain ⟨s1, s2, h1, h2⟩ :=
    (display_unchanged_no_transaction 0x21 0x22 diagonal).1 (by decide) 6 (by decide)
  have h := (display_unchanged_no_transaction 0x21 0x22 diagonal).2.2.1 6 6 s1 s2 h1 h2
  exact ⟨s1, s2, h1, h2, by simpa [diagonal, screen, initCalls] using h⟩

/-- C10: in differential mode, for every width from 1 to 128, every page count
from 1 to 8 and buffers of length at least `width * (height / 8)`, `display()`
terminates without indexing out of bounds, also when the buffers are cut to
exactly `width * (height / 8)` bytes; whenever some cell differs the computed
bounds satisfy `minBoundX <= maxBoundX < width` and
`minBoundY <= maxBoundY < height / 8`, so the 8-bit counters stay below 256 and
`minBoundY == UINT8_MAX` holds exactly when no cell differs; every index
`x + y * width` of the scan and of the streaming loop is below
`width * (height / 8)` and fits in 16 bits; and the column window satisfies
`0 <= x_offset + minBoundX <= x_offset + maxBoundX <= 127`. -/
theorem display_terminates_in_bounds (COLUMNADDR PAGEADDR : Nat) (s : SSD1306Wire)
    (fuel : Nat) (hW1 : 1 ≤ s.width) (hW : s.width ≤ 128) (hP1 : 1 ≤ s.height / 8)
    (hP : s.height / 8 ≤ 8) (hb : s.width * (s.height / 8) ≤ s.buffer.length)
    (hk : s.width * (s.height / 8) ≤ s.buffer_back.length)
    (hf : s.width + s.height / 8 + 2 ≤ fuel) :
    (∃ s', displayDoubleBuffer COLUMNADDR PAGEADDR fuel s = some s') ∧
    (∃ s', displayDoubleBuffer COLUMNADDR PAGEADDR fuel
      { s with buffer := s.buffer.take (s.width * (s.height / 8)),
               buffer_back := s.buffer_back.take (s.width * (s.height / 8)) } = some s') ∧
    (∀ x y, x < s.width → y < s.height / 8 →
      x + y * s.width < s.width * (s.height / 8) ∧ x + y * s.width < 65536) ∧
    ∃ b back, scan fuel (initI2cIfNeccesary s) = some (b, back) ∧
      (b.minBoundY = UINT8_MAX ↔ ∀ x y, ¬ DiffCell s x y) ∧
      ((∃ x y, DiffCell s x y) →
        b.minBoundX ≤ b.maxBoundX ∧ b.maxBoundX < s.width ∧
        b.minBoundY ≤ b.maxBoundY ∧ b.maxBoundY < s.height / 8 ∧
        b.maxBoundX + 1 < 256 ∧ b.maxBoundY + 1 < 256 ∧
        (∀ x y, InRect b x y →
          x + y * s.width < s.width * (s.height / 8) ∧ x + y * s.width < 65536) ∧
        0 ≤ x_offset s + b.minBoundX ∧
        x_offset s + b.minBoundX ≤ x_offset s + b.maxBoundX ∧
        x_offset s + b.maxBoundX ≤ 127) := by
  have hv : ValidDoubleBuffer s := ⟨by omega, by omega, hb, hk⟩
  have hbig : s.width * (s.height / 8) ≤ 1024 := by
    calc s.width * (s.height / 8) ≤ 128 * 8 := Nat.mul_le_mul hW hP
      _ = 1024 := by norm_num
  obtain ⟨s', hs'⟩ := displayDoubleBuffer_total COLUMNADDR PAGEADDR s fuel hv hf
  refine ⟨⟨s', hs'⟩, ?_, ?_, scanBounds s, scannedBack s,
    displayDoubleBuffer_scan_eq _ _ _ _ _ hs', scanBounds_sentinel s (by omega), ?_⟩
  · refine displayDoubleBuffer_total COLUMNADDR PAGEADDR
      { s with buffer := s.buffer.take (s.width * (s.height / 8)),
               buffer_back := s.buffer_back.take (s.width * (s.height / 8)) } fuel ?_ hf
    refine ⟨by show s.width ≤ 255; omega, by show s.height / 8 ≤ 255; omega, ?_, ?_⟩
    · show s.width * (s.height / 8) ≤ (s.buffer.take (s.width * (s.height / 8))).length
      rw [List.length_take]; omega
    · show s.width * (s.height / 8) ≤ (s.buffer_back.take (s.width * (s.height / 8))).length
      rw [List.length_take]; omega
  · intro x y hx hy
    have := cell_index_lt s.width (s.height / 8) x y hx hy
    exact ⟨this, by omega⟩
  · intro hd
    obtain ⟨i1, i2, i3, i4⟩ := scanBounds_inside s (by omega) (by omega) hd
    refine ⟨i1, i2, i3, i4, by omega, by omega, ?_, ?_, ?_, ?_⟩
    · rintro x y ⟨-, hx, -, hy⟩
      have := cell_index_lt s.width (s.height / 8) x y (by omega) (by omega)
      exact ⟨this, by omega⟩
    · unfold x_offset
      rw [Int.tdiv_eq_ediv (by omega) (by norm_num)]
      omega
    · omega
    · unfold x_offset
      rw [Int.tdiv_eq_ediv (by omega) (by norm_num)]
      omega

/-- Witness of C10: `display()` returns on the 16 x 24 screen `onePixel`. -/
theorem display_terminates_in_bounds_witness :
    ∃ s', displayDoubleBuffer 0x21 0x22 21 onePixel = some s' :=
  (display_terminates_in_bounds 0x21 0x22 onePixel 21 (by decide) (by decide) (by decide)
    (by decide) (by decide) (by decide) (by decide)).1

/-- C4: in differential mode, when at least one cell differs, the data phase of
`display()` transmits exactly the rectangle: after the six window commands the
trace consists of data transactions only, each one
`beginTransmission(_address)`, `write(0x40)`, between 1 and 16 payload bytes,
`endTransmission()`; every transaction but the last carries exactly 16 payload
bytes; and the payloads concatenated are the bytes `buffer[x + y * width]` for
`y` from `minBoundY` to `maxBoundY` and, within each `y`, `x` from `minBoundX`
to `maxBoundX`, that is `(maxBoundX - minBoundX + 1) * (maxBoundY - minBoundY + 1)`
bytes, all read inside the buffer. -/
theorem display_streams_rectangle (COLUMNADDR PAGEADDR : Nat) (s : SSD1306Wire) :
    (ValidDoubleBuffer s → ∀ fuel, s.width + s.height / 8 + 2 ≤ fuel →
      ∃ s', displayDoubleBuffer COLUMNADDR PAGEADDR fuel s = some s') ∧
    ∀ fuel s', displayDoubleBuffer COLUMNADDR PAGEADDR fuel s = some s' →
      (∃ x y, DiffCell s x y) →
      ∃ (b : Bounds) (back : List Nat) (chunks : List (List Nat)),
        scan fuel (initI2cIfNeccesary s) = some (b, back) ∧
        s'.wire = s.wire ++ initCalls s._doI2cAutoInit ++
          windowCalls COLUMNADDR PAGEADDR s b ++ chunks.flatMap (dataCalls s._address) ∧
        chunks.flatten =
          (List.range' b.minBoundY (b.maxBoundY - b.minBoundY + 1)).flatMap (fun y =>
            (List.range' b.minBoundX (b.maxBoundX - b.minBoundX + 1)).map (fun x =>
              (s.buffer[x + y * s.width]?).getD 0)) ∧
        (∀ x y, InRect b x y → x + y * s.width < s.buffer.length) ∧
        chunks.flatten.length =
          (b.maxBoundX - b.minBoundX + 1) * (b.maxBoundY - b.minBoundY + 1) ∧
        (∀ c ∈ chunks, 0 < c.length ∧ c.length ≤ 16) ∧
        (∀ c ∈ chunks.dropLast, c.length = 16) := by
  refine ⟨fun hv fuel hf => displayDoubleBuffer_total _ _ s fuel hv hf, ?_⟩
  intro fuel s' h hd
  have hscan := displayDoubleBuffer_scan_eq _ _ _ _ _ h
  rcases displayDoubleBuffer_cases _ _ _ _ _ h with
    ⟨-, hn, -⟩ | ⟨⟨hW, hP, hb, hk⟩, -, chunks, hflat, hlen, hfull, rfl⟩
  · obtain ⟨x, y, hxy⟩ := hd
    exact absurd hxy (hn x y)
  · obtain ⟨i1, i2, i3, i4⟩ := scanBounds_inside s hW hP hd
    have e1 : (scanBounds s).maxBoundX + 1 - (scanBounds s).minBoundX =
        (scanBounds s).maxBoundX - (scanBounds s).minBoundX + 1 := by omega
    have e2 : (scanBounds s).maxBoundY + 1 - (scanBounds s).minBoundY =
        (scanBounds s).maxBoundY - (scanBounds s).minBoundY + 1 := by omega
    refine ⟨scanBounds s, scannedBack s, chunks, hscan, rfl, ?_, ?_, ?_, hlen, hfull⟩
    · rw [hflat, rectBytes, e2]
      unfold rowBytes
      rw [e1]
    · rintro x y ⟨-, hx, -, hy⟩
      have := cell_index_lt s.width (s.height / 8) x y (by omega) (by omega)
      omega
    · rw [hflat, rectBytes_length, e1, e2]

/-- Witness of C4: on `diagonal` the data phase of `display()` is one
transaction carrying the four bytes of the 2 x 2 rectangle. -/
theorem display_streams_rectangle_witness :
    ∃ (s' : SSD1306Wire) (chunks : List (List Nat)),
      displayDoubleBuffer 0x21 0x22 6 diagonal = some s' ∧
      chunks.flatten.length = 4 ∧
      s'.wire = windowCalls 0x21 0x22 diagonal ⟨0, 1, 0, 1⟩ ++
        chunks.flatMap (dataCalls 0x3c) := by
  obtain ⟨s', hs'⟩ := (display_streams_rectangle 0x21 0x22 diagonal).1 (by decide) 6 (by decide)
  obtain ⟨b, back, chunks, hscan, hwire, -, -, hlen, -, -⟩ :=
    (display_streams_rectangle 0x21 0x22 diagonal).2 6 s' hs' ⟨0, 0, by decide⟩
  have hb : b = ⟨0, 1, 0, 1⟩ := by
    have : scan 6 (initI2cIfNeccesary diagonal) = some (⟨0, 1, 0, 1⟩, [1, 0, 0, 1]) := by
      decide
    rw [this] at hscan
    exact (congrArg Prod.fst (Option.some.inj hscan)).symm
  subst hb
  exact ⟨s', chunks, hs', hlen, by simpa [diagonal, screen, initCalls] using hwire⟩

/-- Counterexample to C7 as stated: on `diagonal` the cells `(0, 0)` and
`(1, 1)` differ and the cell `(1, 0)` does not, yet `display()` sends the four
bytes of the whole 2 x 2 rectangle, the unchanged `buffer[1]` and `buffer[2]`
among them: four data bytes for two differing cells. -/
theorem display_sends_unchanged_bytes :
    displayDoubleBuffer 0x21 0x22 6 diagonal =
        some { diagonal with
          buffer_back := [1, 0, 0, 1]
          wire := windowCalls 0x21 0x22 diagonal ⟨0, 1, 0, 1⟩ ++ dataCalls 0x3c [1, 0, 0, 1] } ∧
      diffCells diagonal = [(0, 0), (1, 1)] ∧ ¬ DiffCell diagonal 1 0 := by
  decide

/-- C7, amended: in differential mode `display()` streams the whole bounding
rectangle of the changed cells, changed or not: for every pair of buffers with
at least one differing cell, every payload byte of the data transactions is
`buffer[pos]` for a position `pos = x + y * width` inside the computed
rectangle, every differing cell lies inside that rectangle, and the number of
data bytes transmitted equals the area of the rectangle, which is at least the
number of differing cells. -/
theorem display_streams_whole_rectangle (COLUMNADDR PAGEADDR : Nat) (s : SSD1306Wire) :
    (ValidDoubleBuffer s → ∀ fuel, s.width + s.height / 8 + 2 ≤ fuel →
      ∃ s', displayDoubleBuffer COLUMNADDR PAGEADDR fuel s = some s') ∧
    ∀ fuel s', displayDoubleBuffer COLUMNADDR PAGEADDR fuel s = some s' →
      (∃ x y, DiffCell s x y) →
      ∃ (b : Bounds) (back : List Nat) (chunks : List (List Nat)),
        scan fuel (initI2cIfNeccesary s) = some (b, back) ∧
        s'.wire = s.wire ++ initCalls s._doI2cAutoInit ++
          windowCalls COLUMNADDR PAGEADDR s b ++ chunks.flatMap (dataCalls s._address) ∧
        (∀ v ∈ chunks.flatten, ∃ x y, InRect b x y ∧ s.buffer[x + y * s.width]? = some v) ∧
        (∀ x y, DiffCell s x y → InRect b x y) ∧
        chunks.flatten.length =
          (b.maxBoundX - b.minBoundX + 1) * (b.maxBoundY - b.minBoundY + 1) ∧
        (diffCells s).length ≤ chunks.flatten.length := by
  refine ⟨fun hv fuel hf => displayDoubleBuffer_total _ _ s fuel hv hf, ?_⟩
  intro fuel s' h hd
  have hscan := displayDoubleBuffer_scan_eq _ _ _ _ _ h
  rcases displayDoubleBuffer_cases _ _ _ _ _ h with
    ⟨-, hn, -⟩ | ⟨⟨hW, hP, hb, hk⟩, -, chunks, hflat, hlen, hfull, rfl⟩
  · obtain ⟨x, y, hxy⟩ := hd
    exact absurd hxy (hn x y)
  · obtain ⟨i1, i2, i3, i4⟩ := scanBounds_inside s hW hP hd
    have e1 : (scanBounds s).maxBoundX + 1 - (scanBounds s).minBoundX =
        (scanBounds s).maxBoundX - (scanBounds s).minBoundX + 1 := by omega
    have e2 : (scanBounds s).maxBoundY + 1 - (scanBounds s).minBoundY =
        (scanBounds s).maxBoundY - (scanBounds s).minBoundY + 1 := by omega
    have hin : ∀ x y, InRect (scanBounds s) x y → x + y * s.width < s.buffer.length := by
      rintro x y ⟨-, hx, -, hy⟩
      have := cell_index_lt s.width (s.height / 8) x y (by omega) (by omega)
      omega
    have harea : chunks.flatten.length =
        ((scanBounds s).maxBoundX - (scanBounds s).minBoundX + 1) *
          ((scanBounds s).maxBoundY - (scanBounds s).minBoundY + 1) := by
      rw [hflat, rectBytes_length, e1, e2]
    refine ⟨scanBounds s, scannedBack s, chunks, hscan, rfl, ?_,
      fun x y hxy => scanBounds_cover s x y hxy, harea, ?_⟩
    · intro v hv
      rw [hflat] at hv
      exact mem_rectBytes s (scanBounds s) i1 i3 hin v hv
    · rw [harea]
      exact diffCells_length_le s

/-- Witness of C7, amended: on `diagonal` four data bytes are sent, two more
than there are differing cells. -/
theorem display_streams_whole_rectangle_witness :
    ∃ (s' : SSD1306Wire) (chunks : List (List Nat)),
      displayDoubleBuffer 0x21 0x22 6 diagonal = some s' ∧
      chunks.flatten.length = 4 ∧ (diffCells diagonal).length = 2 ∧
      s'.wire = windowCalls 0x21 0x22 diagonal ⟨0, 1, 0, 1⟩ ++
        chunks.flatMap (dataCalls 0x3c) := by
  obtain ⟨s', hs'⟩ :=
    (display_streams_whole_rectangle 0x21 0x22 diagonal).1 (by decide) 6 (by decide)
  obtain ⟨b, back, chunks, hscan, hwire, -, -, hlen, -⟩ :=
    (display_streams_whole_rectangle 0x21 0x22 diagonal).2 6 s' hs' ⟨0, 0, by decide⟩
  have hb : b = ⟨0, 1, 0, 1⟩ := by
    have : scan 6 (initI2cIfNeccesary diagonal) = some (⟨0, 1, 0, 1⟩, [1, 0, 0, 1]) := by
      decide
    rw [this] at hscan
    exact (congrArg Prod.fst (Option.some.inj hscan)).symm
  subst hb
  exact ⟨s', chunks, hs', hlen, by decide, by simpa [diagonal, screen, initCalls] using hwire⟩

/-- Counterexample to C5 as stated: with `displayBufferSize = 20` the full
refresh sends 32 data bytes, in two transactions of 16 bytes each, the last one
not short although `20 % 16 != 0`; the bytes `20 .. 31` are read behind the
buffer, and when nothing is readable there the call faults. -/
theorem fullRefresh_sends_past_the_buffer :
    overrun.displayBufferSize = 20 ∧
      displayFullRefresh 0x21 0x22 24 overrun =
        some { overrun with
          wire := fullWindowCalls 0x21 0x22 overrun ++ dataCalls 0x3c (List.range 16) ++
            dataCalls 0x3c (List.range' 16 16) } ∧
      displayFullRefresh 0x21 0x22 24 overrunExact = none := by
  decide

/-- C5, amended: in full-refresh mode, for every `displayBufferSize` that is a
multiple of 16 (and fits the 16-bit index), `display()` issues exactly
`displayBufferSize` data bytes in exactly `displayBufferSize / 16` transactions
of 16 data bytes each; no transaction is short. -/
theorem fullRefresh_sends_sixteens (COLUMNADDR PAGEADDR : Nat) (s : SSD1306Wire) (fuel : Nat)
    (h16 : s.displayBufferSize % 16 = 0) (hs : s.displayBufferSize < 65536)
    (hb : s.displayBufferSize ≤ s.buffer.length)
    (hf : s.displayBufferSize / 16 + 18 ≤ fuel) :
    ∃ (s' : SSD1306Wire) (chunks : List (List Nat)),
      displayFullRefresh COLUMNADDR PAGEADDR fuel s = some s' ∧
      s'.wire = s.wire ++ initCalls s._doI2cAutoInit ++
        fullWindowCalls COLUMNADDR PAGEADDR s ++ chunks.flatMap (dataCalls s._address) ∧
      chunks.flatten.length = s.displayBufferSize ∧
      chunks.length = s.displayBufferSize / 16 ∧
      (∀ c ∈ chunks, c.length = 16) := by
  have hn : (s.displayBufferSize + 15) / 16 = s.displayBufferSize / 16 := by omega
  have hm : 16 * (s.displayBufferSize / 16) = s.displayBufferSize := by omega
  obtain ⟨chunks, h1, h2, h3, h4⟩ := displayFullRefresh_eq COLUMNADDR PAGEADDR s fuel
    (by omega) (by omega) (by omega)
  rw [hn] at h1
  rw [hn, hm] at h3
  refine ⟨_, chunks, h4, rfl, ?_, h1, h2⟩
  rw [h3, List.length_take]
  omega

/-- Witness of C5, amended: `twoChunks` has `displayBufferSize = 32`; the full
refresh sends 32 data bytes in two transactions. -/
theorem fullRefresh_sends_sixteens_witness :
    ∃ (s' : SSD1306Wire) (chunks : List (List Nat)),
      displayFullRefresh 0x21 0x22 20 twoChunks = some s' ∧
      chunks.flatten.length = 32 ∧ chunks.length = 2 ∧
      s'.wire = [WireCall.begin] ++ fullWindowCalls 0x21 0x22 twoChunks ++
        chunks.flatMap (dataCalls 0x3c) := by
  obtain ⟨s', chunks, h, hw, hl, hn, -⟩ :=
    fullRefresh_sends_sixteens 0x21 0x22 twoChunks 20 (by decide) (by decide) (by decide)
      (by decide)
  exact ⟨s', chunks, h, hl, hn, by simpa [twoChunks, screen, initCalls] using hw⟩

/-- C8: in full-refresh mode, for each of the two supported geometries
`display()` sends, before any data transaction, exactly six command
transactions in this order: `COLUMNADDR`, `x_offset`, `x_offset + (width - 1)`,
`PAGEADDR`, `0x0`, `lastPage`, where `x_offset = (128 - width) / 2` and
`lastPage = height / 8 - 1`, that is `0x7` for `GEOMETRY_128_64` and `0x3` for
`GEOMETRY_128_32`; it then streams the entire buffer: the payloads of the data
transactions concatenated are `buffer[0], ..., buffer[displayBufferSize - 1]`
in order. -/
theorem fullRefresh_whole_screen (COLUMNADDR PAGEADDR : Nat) (s : SSD1306Wire) (fuel : Nat)
    (hg : s.geometry = OLEDDISPLAY_GEOMETRY.GEOMETRY_128_64 ∨
      s.geometry = OLEDDISPLAY_GEOMETRY.GEOMETRY_128_32)
    (hc : GeometryContract s) (hf : 82 ≤ fuel) :
    ∃ (s' : SSD1306Wire) (chunks : List (List Nat)) (lastPage : Nat),
      displayFullRefresh COLUMNADDR PAGEADDR fuel s = some s' ∧
      s'.wire = s.wire ++ initCalls s._doI2cAutoInit ++
        commandCalls s._doI2cAutoInit s._address COLUMNADDR ++
        commandCalls s._doI2cAutoInit s._address ((128 - s.width) / 2) ++
        commandCalls s._doI2cAutoInit s._address ((128 - s.width) / 2 + (s.width - 1)) ++
        commandCalls s._doI2cAutoInit s._address PAGEADDR ++
        commandCalls s._doI2cAutoInit s._address 0x0 ++
        commandCalls s._doI2cAutoInit s._address lastPage ++
        chunks.flatMap (dataCalls s._address) ∧
      lastPage = s.height / 8 - 1 ∧
      (s.geometry = OLEDDISPLAY_GEOMETRY.GEOMETRY_128_64 → lastPage = 0x7) ∧
      (s.geometry = OLEDDISPLAY_GEOMETRY.GEOMETRY_128_32 → lastPage = 0x3) ∧
      chunks.flatten = s.buffer ∧ chunks.flatten.length = s.displayBufferSize ∧
      (∀ c ∈ chunks, c.length = 16) := by
  obtain ⟨c64, c32, csize, clen⟩ := hc
  have hdim : s.width = 128 ∧ (s.height = 64 ∨ s.height = 32) := by
    rcases hg with h | h
    · exact ⟨(c64 h).1, Or.inl (c64 h).2⟩
    · exact ⟨(c32 h).1, Or.inr (c32 h).2⟩
  obtain ⟨hw, hh⟩ := hdim
  have hsize : s.displayBufferSize = 1024 ∨ s.displayBufferSize = 512 := by
    rw [csize, hw]
    rcases hh with h | h <;> rw [h] <;> simp
  have hn : 16 * ((s.displayBufferSize + 15) / 16) = s.displayBufferSize := by omega
  obtain ⟨chunks, -, h2, h3, h4⟩ := displayFullRefresh_eq COLUMNADDR PAGEADDR s fuel
    (by omega) (by omega) (by omega)
  rw [hn, ← clen, List.take_length] at h3
  have hx0 : toUint8 (x_offset s) = (128 - s.width) / 2 := by
    simp [toUint8, x_offset, hw]
  have hx1 : toUint8 (x_offset s + ((s.width : Int) - 1)) =
      (128 - s.width) / 2 + (s.width - 1) := by
    simp [toUint8, x_offset, hw]
  refine ⟨_, chunks, s.height / 8 - 1, h4, ?_, rfl, ?_, ?_, h3, by rw [h3, clen], h2⟩
  · simp only [fullWindowCalls, geometryCalls, hx0, hx1]
    rcases hg with h | h
    · rw [(c64 h).2, h]
      simp only [if_true, List.append_assoc]
    · rw [(c32 h).2, h]
      simp only [reduceCtorEq, if_false, if_true, List.append_assoc]
  · intro h
    rw [(c64 h).2]
  · intro h
    rw [(c32 h).2]

/-- Witness of C8: the full refresh of the 128 x 32 screen `panel32` ends its
window commands with the last page `0x3` and streams all 512 bytes. -/
theorem fullRefresh_whole_screen_witness :
    ∃ (s' : SSD1306Wire) (chunks : List (List Nat)),
      displayFullRefresh 0x21 0x22 82 panel32 = some s' ∧
      chunks.flatten = panel32.buffer ∧
      s'.wire = commandCalls false 0x3c 0x21 ++ commandCalls false 0x3c 0 ++
        commandCalls false 0x3c 127 ++ commandCalls false 0x3c 0x22 ++
        commandCalls false 0x3c 0 ++ commandCalls false 0x3c 3 ++
        chunks.flatMap (dataCalls 0x3c) := by
  obtain ⟨s', chunks, lastPage, h, hw, -, -, h32, hflat, -, -⟩ :=
    fullRefresh_whole_screen 0x21 0x22 panel32 82 (Or.inr rfl)
      ⟨by decide, by decide, by decide, List.length_replicate 512 0⟩ (by decide)
  rw [h32 rfl] at hw
  exact ⟨s', chunks, h, hflat, hw⟩

/-- C6: `setI2cAutoInit` changes nothing but the flag `_doI2cAutoInit`, and
`display()`, in either mode, changes nothing but the shadow buffer and the bus
trace, so the flag stays as set over every later call. After
`setI2cAutoInit(true)`, the bus trace of the next `display()` and of every
`display()` of a later session (frames written to `buffer`, each followed by
`display()`) is one `begin()`, then command transactions each immediately
preceded by a `begin()`, then data transactions. After
`setI2cAutoInit(false)`, the traces of these calls consist of command and data
transactions and contain no `begin()`; following `connect()`, the only
`begin()` on the bus is the one `connect()` made. In both settings `display()`
returns, call after call, on every screen that its mode supports. -/
theorem setI2cAutoInit_controls_begin (mode : Bool) (COLUMNADDR PAGEADDR : Nat)
    (s : SSD1306Wire) :
    (∀ flag, setI2cAutoInit s flag = { s with _doI2cAutoInit := flag }) ∧
    (∀ flag fuel s',
      display mode COLUMNADDR PAGEADDR fuel (setI2cAutoInit s flag) = some s' →
      s'._doI2cAutoInit = flag ∧
      s' = { setI2cAutoInit s flag with buffer_back := s'.buffer_back, wire := s'.wire }) ∧
    (∀ fuel s', display mode COLUMNADDR PAGEADDR fuel (setI2cAutoInit s true) = some s' →
      ∃ (commands : List Nat) (chunks : List (List Nat)),
        s'.wire = s.wire ++ [WireCall.begin] ++
          commands.flatMap (fun c => WireCall.begin :: commandTransaction s._address c) ++
          chunks.flatMap (dataCalls s._address)) ∧
    (∀ fuel s', display mode COLUMNADDR PAGEADDR fuel (setI2cAutoInit s false) = some s' →
      ∃ (commands : List Nat) (chunks : List (List Nat)),
        s'.wire = s.wire ++ (commands.flatMap (commandTransaction s._address) ++
          chunks.flatMap (dataCalls s._address)) ∧
        WireCall.begin ∉ commands.flatMap (commandTransaction s._address) ++
          chunks.flatMap (dataCalls s._address)) ∧
    (∀ fuel s',
      display mode COLUMNADDR PAGEADDR fuel (setI2cAutoInit (connect s).2 false) = some s' →
      ∃ extra : List WireCall,
        s'.wire = s.wire ++ [WireCall.begin, WireCall.setClock 400000] ++ extra ∧
        WireCall.begin ∉ extra) ∧
    (∀ frames fuel s',
      displayFrames mode COLUMNADDR PAGEADDR fuel frames (setI2cAutoInit s true) = some s' →
      s'._doI2cAutoInit = true ∧
      ∃ runs : List (List Nat × List (List Nat)), runs.length = frames.length ∧
        s'.wire = s.wire ++ runs.flatMap (fun run =>
          [WireCall.begin] ++
            run.1.flatMap (fun c => WireCall.begin :: commandTransaction s._address c) ++
            run.2.flatMap (dataCalls s._address))) ∧
    (∀ frames fuel s',
      displayFrames mode COLUMNADDR PAGEADDR fuel frames (setI2cAutoInit s false) = some s' →
      s'._doI2cAutoInit = false ∧
      ∃ runs : List (List Nat × List (List Nat)), runs.length = frames.length ∧
        s'.wire = s.wire ++ runs.flatMap (fun run =>
          run.1.flatMap (commandTransaction s._address) ++
            run.2.flatMap (dataCalls s._address)) ∧
        WireCall.begin ∉ runs.flatMap (fun run =>
          run.1.flatMap (commandTransaction s._address) ++
            run.2.flatMap (dataCalls s._address))) ∧
    (∀ frames fuel s',
      displayFrames mode COLUMNADDR PAGEADDR fuel frames
        (setI2cAutoInit (connect s).2 false) = some s' →
      ∃ extra : List WireCall,
        s'.wire = s.wire ++ [WireCall.begin, WireCall.setClock 400000] ++ extra ∧
        WireCall.begin ∉ extra) ∧
    (∀ flag fuel, ValidDoubleBuffer s → s.width + s.height / 8 + 2 ≤ fuel →
      ∃ s', display true COLUMNADDR PAGEADDR fuel (setI2cAutoInit s flag) = some s') ∧
    (∀ flag fuel, s.displayBufferSize ≤ 65520 →
      16 * ((s.displayBufferSize + 15) / 16) ≤ s.buffer.length →
      (s.displayBufferSize + 15) / 16 + 18 ≤ fuel →
      ∃ s', display false COLUMNADDR PAGEADDR fuel (setI2cAutoInit s flag) = some s') ∧
    (∀ flag frames fuel, s.width ≤ 255 → s.height / 8 ≤ 255 →
      s.width * (s.height / 8) ≤ s.buffer_back.length →
      (∀ frame ∈ frames, s.width * (s.height / 8) ≤ frame.length) →
      s.width + s.height / 8 + 2 ≤ fuel →
      ∃ s', displayFrames true COLUMNADDR PAGEADDR fuel frames (setI2cAutoInit s flag) =
        some s') ∧
    (∀ flag frames fuel, s.displayBufferSize ≤ 65520 →
      (∀ frame ∈ frames, 16 * ((s.displayBufferSize + 15) / 16) ≤ frame.length) →
      (s.displayBufferSize + 15) / 16 + 18 ≤ fuel →
      ∃ s', displayFrames false COLUMNADDR PAGEADDR fuel frames (setI2cAutoInit s flag) =
        some s') := by
  have hoff : ∀ (t s' : SSD1306Wire) fuel, t._doI2cAutoInit = false →
      display mode COLUMNADDR PAGEADDR fuel t = some s' →
      ∃ (commands : List Nat) (chunks : List (List Nat)),
        s'.wire = t.wire ++ (commands.flatMap (commandTransaction t._address) ++
          chunks.flatMap (dataCalls t._address)) ∧
        WireCall.begin ∉ commands.flatMap (commandTransaction t._address) ++
          chunks.flatMap (dataCalls t._address) := by
    intro t s' fuel hflag h
    obtain ⟨commands, chunks, hw⟩ := display_trace_shape _ _ _ _ _ _ h
    refine ⟨commands, chunks, ?_, begin_not_mem_transactions _ _ _⟩
    rw [hw, hflag]
    have : commandCalls false t._address = commandTransaction t._address := by
      funext c
      simp [commandCalls, initCalls]
    rw [this]
    simp [initCalls]
  have hcalls : ∀ address : Nat, displayCalls false address = fun run =>
      run.1.flatMap (commandTransaction address) ++ run.2.flatMap (dataCalls address) := by
    intro address
    funext run
    have : commandCalls false address = commandTransaction address := by
      funext c
      simp [commandCalls, initCalls]
    simp [displayCalls, initCalls, this]
  have hsession : ∀ (t s' : SSD1306Wire) frames fuel, t._doI2cAutoInit = false →
      displayFrames mode COLUMNADDR PAGEADDR fuel frames t = some s' →
      s'._doI2cAutoInit = false ∧
      ∃ runs : List (List Nat × List (List Nat)), runs.length = frames.length ∧
        s'.wire = t.wire ++ runs.flatMap (fun run =>
          run.1.flatMap (commandTransaction t._address) ++
            run.2.flatMap (dataCalls t._address)) ∧
        WireCall.begin ∉ runs.flatMap (fun run =>
          run.1.flatMap (commandTransaction t._address) ++
            run.2.flatMap (dataCalls t._address)) := by
    intro t s' frames fuel hflag h
    obtain ⟨e1, -, runs, hlen, hw⟩ := displayFrames_trace _ _ _ _ _ _ _ h
    have hno := begin_not_mem_runs t._address runs
    rw [hflag] at e1 hw
    rw [hcalls] at hw hno
    exact ⟨e1, runs, hlen, hw, hno⟩
  refine ⟨fun _ => rfl, ?_, ?_, ?_, ?_, ?_, ?_, ?_, ?_, ?_, ?_, ?_⟩
  · intro flag fuel s' h
    have hf := display_frame _ _ _ _ _ _ h
    exact ⟨by rw [hf]; rfl, hf⟩
  · intro fuel s' h
    obtain ⟨commands, chunks, hw⟩ := display_trace_shape _ _ _ _ _ _ h
    refine ⟨commands, chunks, ?_⟩
    rw [hw]
    rfl
  · intro fuel s' h
    exact hoff (setI2cAutoInit s false) s' fuel rfl h
  · intro fuel s' h
    obtain ⟨commands, chunks, hw, hno⟩ := hoff (setI2cAutoInit (connect s).2 false) s' fuel rfl h
    exact ⟨_, hw, hno⟩
  · intro frames fuel s' h
    obtain ⟨e1, -, runs, hlen, hw⟩ := displayFrames_trace _ _ _ _ _ _ _ h
    refine ⟨e1, runs, hlen, ?_⟩
    rw [hw]
    rfl
  · intro frames fuel s' h
    exact hsession (setI2cAutoInit s false) s' frames fuel rfl h
  · intro frames fuel s' h
    obtain ⟨-, runs, -, hw, hno⟩ :=
      hsession (setI2cAutoInit (connect s).2 false) s' frames fuel rfl h
    exact ⟨_, hw, hno⟩
  · intro flag fuel hv hf
    exact displayDoubleBuffer_total COLUMNADDR PAGEADDR (setI2cAutoInit s flag) fuel hv hf
  · intro flag fuel hs hb hf
    obtain ⟨chunks, -, -, -, h⟩ := displayFullRefresh_eq COLUMNADDR PAGEADDR
      (setI2cAutoInit s flag) fuel hs hb hf
    exact ⟨_, h⟩
  · intro flag frames fuel hW hP hk hall hf
    exact displayFrames_total_doubleBuffer COLUMNADDR PAGEADDR fuel frames
      (setI2cAutoInit s flag) hW hP hk hall hf
  · intro flag frames fuel hs hall hf
    exact displayFrames_total_fullRefresh COLUMNADDR PAGEADDR fuel frames
      (setI2cAutoInit s flag) hs hall hf

/-- Witness of C6: a session of two full refreshes of `twoChunks` after
`setI2cAutoInit(true)` keeps the flag set and every command of both calls
follows a `begin()`; after `setI2cAutoInit(false)` the same session puts no
`begin()` on the bus. -/
theorem setI2cAutoInit_controls_begin_witness :
    (∃ (s' : SSD1306Wire) (runs : List (List Nat × List (List Nat))),
      displayFrames false 0x21 0x22 20 [List.range 32, List.range 32]
        (setI2cAutoInit twoChunks true) = some s' ∧
      s'._doI2cAutoInit = true ∧ runs.length = 2 ∧
      s'.wire = runs.flatMap (fun run =>
        [WireCall.begin] ++
          run.1.flatMap (fun c => WireCall.begin :: commandTransaction 0x3c c) ++
          run.2.flatMap (dataCalls 0x3c))) ∧
    (∃ s' : SSD1306Wire,
      displayFrames false 0x21 0x22 20 [List.range 32, List.range 32]
        (setI2cAutoInit twoChunks false) = some s' ∧
      s'._doI2cAutoInit = false ∧ WireCall.begin ∉ s'.wire) := by
  have hthm := setI2cAutoInit_controls_begin false 0x21 0x22 twoChunks
  obtain ⟨-, -, -, -, -, hon, hoff, -, -, -, -, htotal⟩ := hthm
  constructor
  · obtain ⟨s', h⟩ := htotal true [List.range 32, List.range 32] 20 (by decide) (by decide)
      (by decide)
    obtain ⟨hflag, runs, hlen, hw⟩ := hon _ 20 s' h
    exact ⟨s', runs, h, hflag, hlen, hw⟩
  · obtain ⟨s', h⟩ := htotal false [List.range 32, List.range 32] 20 (by decide) (by decide)
      (by decide)
    obtain ⟨hflag, runs, -, hw, hno⟩ := hoff _ 20 s' h
    refine ⟨s', h, hflag, ?_⟩
    rw [hw]
    exact hno

end SSD1306
